import Mathlib

/-!
# The mdBook sidebar script `toc.js`

A shallow embedding of `MDBookSidebarScrollbox.connectedCallback` (src/toc.js) and of the
two event handlers it registers, over a small model of the DOM:

* the document is a tree of elements (`Elem`); an element reference (`Ref`) is the
  list of child indices leading from the element up to the root, nearest index first,
  so that `parentElement` is the tail of the reference;
* `sessionStorage` is an association list of key/value strings;
* `scrollIntoView` calls are recorded in a log.

Text nodes are folded into the `text` field of their parent, because no code of the
script reads them; the children of an element are its element children.
-/

namespace MdbookToc

/-! ## Strings -/

/-- JavaScript `s.startsWith(p)`. -/
def startsWith (s p : String) : Bool := p.data.isPrefixOf s.data

/-- JavaScript `s.endsWith(p)`. -/
def endsWith (s p : String) : Bool := p.data.isSuffixOf s.data

/-- JavaScript `s.split("#")[0]`: everything before the first `#`. -/
def splitHashFirst (s : String) : String := ⟨s.data.takeWhile (fun c => c != '#')⟩

/-- The character class `[a-z+]` of the regular expression on line 22. -/
def isSchemeChar (c : Char) : Bool := (97 ≤ c.toNat && c.toNat ≤ 122) || c == '+'

/-- The test `/^(?:[a-z+]+:)?\/\//.test(s)` of line 22: at the start of `s`, an optional
group made of a greedy non-empty run of `[a-z+]` and a colon, followed by two slashes.
A shorter run can never be followed by a colon, so the greedy run decides the match. -/
def schemeRegexTest (s : String) : Bool :=
  "//".data.isPrefixOf s.data ||
    (!(s.data.takeWhile isSchemeChar).isEmpty &&
      "://".data.isPrefixOf (s.data.dropWhile isSchemeChar))

/-- Lines 13 to 16: the document URL without its fragment, with `index.html` appended
when it ends with a slash. -/
def currentPage (href : String) : String :=
  let current_page := splitHashFirst href
  if endsWith current_page "/" then current_page ++ "index.html" else current_page

/-- The test of line 22 that decides whether a link is rewritten:
`href && !href.startsWith("#") && !/^(?:[a-z+]+:)?\/\//.test(href)`. -/
def isRelativeHref : Option String → Bool
  | none => false
  | some href => href != "" && !startsWith href "#" && !schemeRegexTest href

/-- JavaScript number, as far as the script handles one: a scroll offset. A number is
identified by the string `String(x)` gives for it (`120`, `120.5`, `1e+21`), which is all
the script ever does with one besides handing it back to the browser. -/
structure JSNumber where
  text : String
  deriving DecidableEq, Repr

/-- The whole number `n` as a JavaScript number (for `n` below `1e21`, where `String`
prints all the decimal digits). -/
def JSNumber.ofNat (n : Nat) : JSNumber := ⟨Nat.repr n⟩

/-- The conversion `String(x)` that `setItem` applies to the scroll offset on line 45. -/
def numberToString (x : JSNumber) : String := x.text

/-! ## The DOM -/

/-- The two functions the script registers as click listeners. -/
inductive Listener where
  | saveScroll
  | toggleSection
  deriving DecidableEq, Repr

/-- What an element carries apart from its children. -/
structure Node where
  tagName : String
  classList : List String := []
  attrs : List (String × String) := []
  text : String := ""
  scrollTop : JSNumber := JSNumber.ofNat 0
  clickListeners : List Listener := []
  deriving DecidableEq, Repr

/-- Element of the document tree. -/
inductive Elem where
  | mk (node : Node) (children : List Elem)

/-- Reference to an element: its child index, then its parent's, up to the root. -/
abbrev Ref := List Nat

namespace Elem

/-- Own data of an element. -/
def node : Elem → Node
  | .mk n _ => n

/-- Element children. -/
def children : Elem → List Elem
  | .mk _ cs => cs

/-- Element reached by following child indices from the root down. -/
def getPath : Elem → List Nat → Option Elem
  | d, [] => some d
  | d, i :: p =>
    match d.children[i]? with
    | none => none
    | some c => getPath c p

end Elem

/-- Apply `f` to the entry of index `i`, if there is one. -/
def modifyAt {α : Type} (f : α → α) : Nat → List α → List α
  | _, [] => []
  | 0, a :: as => f a :: as
  | n + 1, a :: as => a :: modifyAt f n as

namespace Elem

/-- Apply `f` to the element reached by a root-first list of indices. -/
def updatePath (f : Elem → Elem) : Elem → List Nat → Elem
  | d, [] => f d
  | .mk n cs, i :: p => .mk n (modifyAt (fun c => updatePath f c p) i cs)

/-- Element a reference denotes, `none` when the reference dangles. -/
def get? (d : Elem) (r : Ref) : Option Elem := d.getPath r.reverse

/-- Apply `f` to the element a reference denotes. -/
def update (d : Elem) (r : Ref) (f : Elem → Elem) : Elem := d.updatePath f r.reverse

mutual
/-- References of an element and of its descendants, in document order. -/
def refs : Elem → Ref → List Ref
  | .mk _ cs, here => here :: refsList cs here 0
/-- References of the elements of a child list from index `i` on, with descendants. -/
def refsList : List Elem → Ref → Nat → List Ref
  | [], _, _ => []
  | c :: cs, here, i => refs c (i :: here) ++ refsList cs here (i + 1)
end

end Elem

/-- Own data of the element at `r`. -/
def nodeAt (d : Elem) (r : Ref) : Option Node := (d.get? r).map Elem.node

/-- Change the own data of the element at `r`. -/
def updateNode (d : Elem) (r : Ref) (g : Node → Node) : Elem :=
  d.update r (fun e => .mk (g e.node) e.children)

/-- The `tagName` property. -/
def tagName (d : Elem) (r : Ref) : String :=
  match nodeAt d r with
  | some n => n.tagName
  | none => ""

/-- The tokens of `classList`. -/
def classList (d : Elem) (r : Ref) : List String :=
  match nodeAt d r with
  | some n => n.classList
  | none => []

/-- The method `classList.contains(c)`. -/
def classListContains (d : Elem) (r : Ref) (c : String) : Bool := (classList d r).contains c

/-- The method `classList.add(c)`: the token is appended unless it is present. -/
def classListAdd (d : Elem) (r : Ref) (c : String) : Elem :=
  updateNode d r (fun n =>
    { n with classList := if n.classList.contains c then n.classList else n.classList ++ [c] })

/-- The method `classList.toggle(c)`: the token is removed when present, added otherwise. -/
def classListToggle (d : Elem) (r : Ref) (c : String) : Elem :=
  updateNode d r (fun n =>
    { n with classList :=
        if n.classList.contains c then n.classList.filter (fun t => t != c)
        else n.classList ++ [c] })

/-- The method `getAttribute(name)`: `none` stands for `null`. -/
def getAttribute (d : Elem) (r : Ref) (name : String) : Option String :=
  match nodeAt d r with
  | some n => n.attrs.lookup name
  | none => none

/-- Set an attribute in an attribute list: replace its value or append it. -/
def setAttr (attrs : List (String × String)) (name value : String) : List (String × String) :=
  if attrs.any (fun kv => kv.1 == name) then
    attrs.map (fun kv => if kv.1 == name then (name, value) else kv)
  else attrs ++ [(name, value)]

/-- Assignment to the `href` property of a link, which sets the `href` attribute. -/
def setHref (d : Elem) (r : Ref) (value : String) : Elem :=
  updateNode d r (fun n => { n with attrs := setAttr n.attrs "href" value })

/-- The `parentElement` property: `none` stands for `null`, at the root. -/
def parentElement : Ref → Option Ref
  | [] => none
  | _ :: up => some up

/-- The `previousElementSibling` property: `none` stands for `null`. -/
def previousElementSibling : Ref → Option Ref
  | [] => none
  | 0 :: _ => none
  | (k + 1) :: up => some (k :: up)

/-- The `scrollTop` property. -/
def scrollTop (d : Elem) (r : Ref) : JSNumber :=
  match nodeAt d r with
  | some n => n.scrollTop
  | none => JSNumber.ofNat 0

/-- Assignment of a number to `scrollTop`. -/
def setScrollTop (d : Elem) (r : Ref) (v : JSNumber) : Elem :=
  updateNode d r (fun n => { n with scrollTop := v })

/-- The click listeners registered on an element, in registration order. -/
def clickListeners (d : Elem) (r : Ref) : List Listener :=
  match nodeAt d r with
  | some n => n.clickListeners
  | none => []

/-- The call `addEventListener('click', f)` with a function object `f` evaluated for this
call: a fresh function object is never a duplicate, so it is always appended. -/
def addClickListener (d : Elem) (r : Ref) (f : Listener) : Elem :=
  updateNode d r (fun n => { n with clickListeners := n.clickListeners ++ [f] })

/-- Assignment to `innerHTML`: the children are replaced by the parsed markup. -/
def setInnerHTML (d : Elem) (r : Ref) (markup : List Elem) : Elem :=
  d.update r (fun e => .mk e.node markup)

/-- The descendants of the element at `r`, in document order. -/
def descendants (d : Elem) (r : Ref) : List Ref :=
  match d.get? r with
  | some e => Elem.refsList e.children r 0
  | none => []

/-- `this.querySelectorAll("a")`: the descendant elements whose tag is `A`. -/
def querySelectorAllA (d : Elem) (this : Ref) : List Ref :=
  (descendants d this).filter (fun r => tagName d r == "A")

/-- Whether an element matches the selector `#sidebar *` taken at that element: one
of its proper ancestors has the id `sidebar`. -/
def inSidebar (d : Elem) : Ref → Bool
  | [] => false
  | _ :: up => getAttribute d up "id" == some "sidebar" || inSidebar d up

/-- `document.querySelector('#sidebar .active')`: the first element in document order
that has class `active` below an element of id `sidebar`. -/
def querySidebarActive (d : Elem) : Option Ref :=
  ((d.refs []).filter (fun r => inSidebar d r && classListContains d r "active")).head?

/-- `document.querySelectorAll('#sidebar a.toggle')`. -/
def querySidebarToggles (d : Elem) : List Ref :=
  (d.refs []).filter (fun r =>
    inSidebar d r && tagName d r == "A" && classListContains d r "toggle")

/-! ## Session storage -/

/-- Contents of `sessionStorage`. -/
abbrev Storage := List (String × String)

/-- `sessionStorage.getItem(k)`: `none` stands for `null`. -/
def getItem (st : Storage) (k : String) : Option String := st.lookup k

/-- `sessionStorage.setItem(k, v)`. -/
def setItem (st : Storage) (k v : String) : Storage :=
  if st.any (fun kv => kv.1 == k) then
    st.map (fun kv => if kv.1 == k then (k, v) else kv)
  else st ++ [(k, v)]

/-- `sessionStorage.removeItem(k)`. -/
def removeItem (st : Storage) (k : String) : Storage := st.filter (fun kv => kv.1 != k)

/-! ## The table of contents (line 11) -/

/-- The number label of an entry: `<strong aria-hidden="true">num</strong>`. -/
def strongLabel (num : String) : Elem :=
  .mk { tagName := "STRONG", attrs := [("aria-hidden", "true")], text := num } []

/-- An entry of the table of contents:
`<li class="chapter-item expanded "><a href="h"><strong ..>num</strong>label</a></li>`. -/
def chapterItem (href num label : String) : Elem :=
  .mk { tagName := "LI", classList := ["chapter-item", "expanded"] }
    [.mk { tagName := "A", attrs := [("href", href)], text := label } [strongLabel num]]

/-- A nested section: `<li><ol class="section">items</ol></li>`. -/
def sectionItem (items : List Elem) : Elem :=
  .mk { tagName := "LI" } [.mk { tagName := "OL", classList := ["section"] } items]

def tocItems : List Elem := [
  chapterItem "intro/main.html" "1." " Introduction",
  sectionItem [
    chapterItem "intro/overview.html" "1.1." " Overview",
    chapterItem "intro/usage.html" "1.2." " Usage",
    chapterItem "intro/performance.html" "1.3." " Performance"],
  chapterItem "tools/main.html" "2." " Development tooling",
  sectionItem [
    chapterItem "tools/debugger.html" "2.1." " Debugger",
    chapterItem "tools/repl.html" "2.2." " REPL"],
  chapterItem "user_docs/main.html" "3." " User Documentation",
  sectionItem [
    chapterItem "user_docs/assembly/main.html" "3.1." " Miden Assembly",
    sectionItem [
      chapterItem "user_docs/assembly/code_organization.html" "3.1.1." " Code Organization",
      chapterItem "user_docs/assembly/execution_contexts.html" "3.1.2." " Execution contexts",
      chapterItem "user_docs/assembly/flow_control.html" "3.1.3." " Flow Control",
      chapterItem "user_docs/assembly/field_operations.html" "3.1.4." " Field Operations",
      chapterItem "user_docs/assembly/u32_operations.html" "3.1.5." " u32 Operations",
      chapterItem "user_docs/assembly/stack_manipulation.html" "3.1.6." " Stack manipulation",
      chapterItem "user_docs/assembly/io_operations.html" "3.1.7." " Input / Output Operations",
      chapterItem "user_docs/assembly/cryptographic_operations.html" "3.1.8." " Cryptographic Operations",
      chapterItem "user_docs/assembly/events.html" "3.1.9." " Events",
      chapterItem "user_docs/assembly/debugging.html" "3.1.10." " Debugging"],
    chapterItem "user_docs/stdlib/main.html" "3.2." " Miden Standard Library",
    sectionItem [
      chapterItem "user_docs/stdlib/collections.html" "3.2.1." " std::collections",
      chapterItem "user_docs/stdlib/crypto/dsa.html" "3.2.2." " std::crypto::dsa",
      chapterItem "user_docs/stdlib/crypto/fri.html" "3.2.3." " std::crypto::fri",
      chapterItem "user_docs/stdlib/crypto/hashes.html" "3.2.4." " std::crypto::hashes",
      chapterItem "user_docs/stdlib/math/u64.html" "3.2.5." " std::math::u64",
      chapterItem "user_docs/stdlib/mem.html" "3.2.6." " std::mem",
      chapterItem "user_docs/stdlib/sys.html" "3.2.7." " std:sys"]],
  chapterItem "design/main.html" "4." " Design",
  sectionItem [
    chapterItem "design/programs.html" "4.1." " Programs",
    chapterItem "design/decoder/main.html" "4.2." " Program decoder",
    sectionItem [
      chapterItem "design/decoder/constraints.html" "4.2.1." " Decoder constraints"],
    chapterItem "design/stack/main.html" "4.3." " Operand stack",
    sectionItem [
      chapterItem "design/stack/op_constraints.html" "4.3.1." " Operation constraints",
      chapterItem "design/stack/system_ops.html" "4.3.2." " System operations",
      chapterItem "design/stack/field_ops.html" "4.3.3." " Field operations",
      chapterItem "design/stack/u32_ops.html" "4.3.4." " u32 operations",
      chapterItem "design/stack/stack_ops.html" "4.3.5." " Stack manipulation",
      chapterItem "design/stack/io_ops.html" "4.3.6." " Input / output operations",
      chapterItem "design/stack/crypto_ops.html" "4.3.7." " Cryptographic operations"],
    chapterItem "design/range.html" "4.4." " Range Checker",
    chapterItem "design/chiplets/main.html" "4.5." " Chiplets",
    sectionItem [
      chapterItem "design/chiplets/hasher.html" "4.5.1." " Hash Chiplet",
      chapterItem "design/chiplets/bitwise.html" "4.5.2." " Bitwise Chiplet",
      chapterItem "design/chiplets/memory.html" "4.5.3." " Memory Chiplet",
      chapterItem "design/chiplets/kernel_rom.html" "4.5.4." " Kernel ROM Chiplet"],
    chapterItem "design/lookups/main.html" "4.6." " Lookup arguments",
    sectionItem [
      chapterItem "design/lookups/multiset.html" "4.6.1." " Multiset checks",
      chapterItem "design/lookups/logup.html" "4.6.2." " LogUp"]],
  chapterItem "background.html" "5." " Background Material"]

/-- The markup assigned to `this.innerHTML`: `<ol class="chapter">…</ol>`. -/
def tocMarkup : List Elem := [.mk { tagName := "OL", classList := ["chapter"] } tocItems]

/-! ## The script -/

/-- What the embedding page and the browser provide: the document URL, the global
`path_to_root`, the URL a link's `href` property reports for a given `href` attribute
(the attribute resolved against the document base URL), and the number the `scrollTop`
setter makes of a string assigned to it (the conversion `ToNumber` of the language). -/
structure Env where
  href : String
  path_to_root : String
  resolve : String → String
  toNumber : String → JSNumber

/-- State of a page: its document, the session storage, and the elements
`scrollIntoView({ block: 'center' })` was called on, oldest first. -/
structure Page where
  document : Elem
  sessionStorage : Storage
  scrolledIntoView : List Ref

/-- Exception a run of the script can raise. -/
inductive JSError where
  | typeError
  | securityError
  deriving DecidableEq, Repr

/-- The `href` property of a link: the resolved `href` attribute, or the empty string
when the attribute is absent. -/
def hrefProperty (env : Env) (d : Elem) (link : Ref) : String :=
  match getAttribute d link "href" with
  | some h => env.resolve h
  | none => ""

/-- Body of the `while (parent)` loop of lines 32 to 39, for a non-null `parent`,
without the assignment to `parent` that ends it. -/
def expandPrevious (parent : Ref) (d : Elem) : Elem :=
  if tagName d parent = "LI" then
    match previousElementSibling parent with
    | some sibling =>
      if classListContains d sibling "chapter-item" then classListAdd d sibling "expanded" else d
    | none => d
  else d

/-- The `while (parent)` loop of lines 32 to 39, entered with a non-null `parent`: the
body runs for `parent`, then for each of its ancestors up to the root, whose
`parentElement` is `null`. -/
def ancestorWalk : Ref → Elem → Elem
  | [], d => expandPrevious [] d
  | k :: up, d => ancestorWalk up (expandPrevious (k :: up) d)

/-- Lines 27 to 39: what is done to a link found to be the current page. -/
def markActive (link : Ref) (d : Elem) : Elem :=
  let d := classListAdd d link "active"
  match parentElement link with
  | some parent =>
    let d := if classListContains d parent "chapter-item" then classListAdd d parent "expanded" else d
    ancestorWalk parent d
  | none => d

/-- Lines 20 to 40: the body of the loop over the links, for the link of index `i`. -/
def linkBody (env : Env) (i : Nat) (link : Ref) (d : Elem) : Elem :=
  let current_page := currentPage env.href
  let href := getAttribute d link "href"
  let d :=
    match href with
    | some h => if isRelativeHref href then setHref d link (env.path_to_root ++ h) else d
    | none => d
  if hrefProperty env d link = current_page ∨
      (i = 0 ∧ env.path_to_root = "" ∧ endsWith current_page "/index.html" = true) then
    markActive link d
  else d

/-- Lines 19 to 41: `for (var i = 0; i < l; ++i)`. The first argument is the number of
iterations left, `l - i`; reading `links[i]` outside the array raises a `TypeError` at
`link.getAttribute`. -/
def forLinks (env : Env) (links : List Ref) : Nat → Nat → Elem → Except JSError Elem
  | 0, _, d => .ok d
  | n + 1, i, d =>
    match links[i]? with
    | none => .error .typeError
    | some link => forLinks env links n (i + 1) (linkBody env i link d)

/-- Lines 61 to 67: `toggleSection` is registered on every toggle button. -/
def registerToggles (d : Elem) : Elem :=
  (querySidebarToggles d).foldl (fun d el => addClickListener d el .toggleSection) d

/-- Lines 50 to 59: restore the stored scroll offset, or else scroll the active entry
into view. The assignment `this.scrollTop = sidebarScrollTop` of line 52 hands a string
to the setter, which converts it to a number. -/
def restoreScroll (env : Env) (this : Ref) (sidebarScrollTop : Option String) (d : Elem)
    (log : List Ref) : Elem × List Ref :=
  match sidebarScrollTop with
  | some v =>
    if v != "" then (setScrollTop d this (env.toNumber v), log)
    else
      match querySidebarActive d with
      | some activeSection => (d, log ++ [activeSection])
      | none => (d, log)
  | none =>
    match querySidebarActive d with
    | some activeSection => (d, log ++ [activeSection])
    | none => (d, log)

/-- The method `connectedCallback` (lines 10 to 68), run on the element `this` of a page
whose session storage the script may read. -/
def connectedCallback (env : Env) (this : Ref) (pg : Page) : Except JSError Page :=
  let d := setInnerHTML pg.document this tocMarkup
  let links := querySelectorAllA d this
  let l := links.length
  match forLinks env links l 0 d with
  | .error e => .error e
  | .ok d =>
    let d := addClickListener d this .saveScroll
    let sidebarScrollTop := getItem pg.sessionStorage "sidebar-scroll"
    let storage := removeItem pg.sessionStorage "sidebar-scroll"
    let (d, log) := restoreScroll env this sidebarScrollTop d pg.scrolledIntoView
    .ok { document := registerToggles d, sessionStorage := storage, scrolledIntoView := log }

/-- How the browser answers a read of the global `sessionStorage`: it hands out the
storage object, or it raises a `SecurityError`, as it does for a document with an opaque
origin (a `data:` URL, a sandboxed frame) or when the user has blocked storage. -/
inductive StorageAccess where
  | granted
  | denied
  deriving DecidableEq, Repr

/-- The method `connectedCallback` (lines 10 to 68) in any browsing context. The script
reads `sessionStorage` first on line 48, after the loop over the links and the
registration of the click listener; where access is denied that read raises a
`SecurityError`, which nothing in the script catches. Where access is granted the method
is `connectedCallback`. -/
def connectedCallbackIn (access : StorageAccess) (env : Env) (this : Ref) (pg : Page) :
    Except JSError Page :=
  let d := setInnerHTML pg.document this tocMarkup
  let links := querySelectorAllA d this
  let l := links.length
  match forLinks env links l 0 d with
  | .error e => .error e
  | .ok d =>
    let d := addClickListener d this .saveScroll
    match access with
    | .denied => .error .securityError
    | .granted =>
      let sidebarScrollTop := getItem pg.sessionStorage "sidebar-scroll"
      let storage := removeItem pg.sessionStorage "sidebar-scroll"
      let (d, log) := restoreScroll env this sidebarScrollTop d pg.scrolledIntoView
      .ok { document := registerToggles d, sessionStorage := storage, scrolledIntoView := log }

/-- The exception a run raises, if it raises one. -/
def raisedBy (r : Except JSError Page) : Option JSError :=
  match r with
  | .ok _ => none
  | .error e => some e

/-- Click event, as far as the handlers read it. -/
structure Event where
  target : Ref
  currentTarget : Ref

/-- The click listener of lines 43 to 47; its `this` is the element it is registered
on, the event's `currentTarget`. -/
def clickListener (e : Event) (pg : Page) : Page :=
  if tagName pg.document e.target = "A" then
    let offset := numberToString (scrollTop pg.document e.currentTarget)
    { pg with sessionStorage := setItem pg.sessionStorage "sidebar-scroll" offset }
  else pg

/-- The function `toggleSection` of lines 62 to 64. -/
def toggleSection (ev : Event) (pg : Page) : Except JSError Page :=
  match parentElement ev.currentTarget with
  | some parent => .ok { pg with document := classListToggle pg.document parent "expanded" }
  | none => .error .typeError

/-! ## A sample page -/

/-- Page skeleton of the book: `html > body > nav#sidebar > mdbook-sidebar-scrollbox`,
the scroll box being empty before the script runs. -/
def samplePage : Page :=
  { document :=
      .mk { tagName := "HTML" }
        [.mk { tagName := "BODY" }
          [.mk { tagName := "NAV", attrs := [("id", "sidebar")], classList := ["sidebar"] }
            [.mk { tagName := "MDBOOK-SIDEBAR-SCROLLBOX", classList := ["sidebar-scrollbox"] } []]]],
    sessionStorage := [],
    scrolledIntoView := [] }

/-- The scroll box of `samplePage`. -/
def sampleThis : Ref := [0, 0, 0]

/-- Resolution of a relative `href` attribute for a page one directory below the root
of the site `https://example.org/`: a leading `../` leads to the root. -/
def sampleResolve (h : String) : String :=
  if startsWith h "../" then "https://example.org/" ++ ⟨h.data.drop 3⟩
  else "https://example.org/intro/" ++ h

/-- Decimal value of a string of digits; `none` when a character is not a digit. -/
def digitsValue : List Char → Nat → Option Nat
  | [], acc => some acc
  | c :: cs, acc =>
    if 48 ≤ c.toNat && c.toNat ≤ 57 then digitsValue cs (10 * acc + (c.toNat - 48)) else none

/-- The conversion of the sample pages. It is `ToNumber` on the unsigned decimal numerals,
the strings the click listener stores for whole scroll offsets; on every other string it
answers 0, which is what the setter makes of a string that is no number, and it says
nothing about fractions or exponents. The theorems hold for every conversion. -/
def sampleToNumber (s : String) : JSNumber :=
  if s.data.isEmpty then JSNumber.ofNat 0 else JSNumber.ofNat ((digitsValue s.data 0).getD 0)

/-- The page `intro/usage.html` of the book, opened at a fragment. -/
def sampleEnv : Env :=
  { href := "https://example.org/intro/usage.html#install",
    path_to_root := "../",
    resolve := sampleResolve,
    toNumber := sampleToNumber }

/-- The index page of a book served at the root of the site `https://example.org/`. -/
def rootEnv : Env :=
  { href := "https://example.org/",
    path_to_root := "",
    resolve := fun h => "https://example.org/" ++ h,
    toNumber := sampleToNumber }

/-- A page opened from a `data:` URL: its origin is opaque, and a link's `href` property
reports the attribute as written, since no relative URL resolves against such a base. -/
def opaqueEnv : Env :=
  { href := "data:text/html,<mdbook-sidebar-scrollbox></mdbook-sidebar-scrollbox>",
    path_to_root := "",
    resolve := fun h => h,
    toNumber := sampleToNumber }

/-- The sample page with a scroll offset left in session storage by an earlier page. -/
def storedPage : Page :=
  { samplePage with sessionStorage := [("theme", "dark"), ("sidebar-scroll", "120")] }

/-- The sample page after the script has run and the user has scrolled the sidebar down
by 120 pixels. -/
def scrolledPage : Page :=
  match connectedCallback sampleEnv sampleThis samplePage with
  | .ok pg => { pg with document := setScrollTop pg.document sampleThis (JSNumber.ofNat 120) }
  | .error _ => samplePage

/-- A click on the first link of the sidebar, on the text of the `a` element. -/
def linkClick : Event := { target := [0, 0, 0, 0, 0, 0], currentTarget := sampleThis }

/-- A click on the first link of the sidebar, on the number label: the target is the
`strong` element inside the `a` element. -/
def strongClick : Event := { target := [0, 0, 0, 0, 0, 0, 0], currentTarget := sampleThis }

/-- The page the browser loads after a click on a link: a fresh document, the session
storage of the page left. -/
def nextPage (pg : Page) : Page := { samplePage with sessionStorage := pg.sessionStorage }

/-- The scroll offset of the sidebar after a run of the callback, if it returns. -/
def scrollTopAfter (r : Except JSError Page) (this : Ref) : Option JSNumber :=
  match r with
  | .ok pg => some (scrollTop pg.document this)
  | .error _ => none

/-- The log of `scrollIntoView` calls after a run of the callback, if it returns. -/
def scrolledIntoViewAfter (r : Except JSError Page) : Option (List Ref) :=
  match r with
  | .ok pg => some pg.scrolledIntoView
  | .error _ => none

/-- The click listeners of the sidebar after a run of the callback, if it returns. -/
def clickListenersAfter (r : Except JSError Page) (this : Ref) : Option (List Listener) :=
  match r with
  | .ok pg => some (clickListeners pg.document this)
  | .error _ => none

/-- Two runs of the callback in succession. -/
def connectedCallbackTwice (env : Env) (this : Ref) (pg : Page) : Except JSError Page :=
  match connectedCallback env this pg with
  | .ok pg' => connectedCallback env this pg'
  | .error e => .error e


/-! ## Notions used to state what the script does -/

/-- Whether a reference denotes an element of the document. -/
def connected (d : Elem) (r : Ref) : Bool := (nodeAt d r).isSome

/-- Own data of an element with the parts the loop over the links may change erased:
the class list and the `href` attribute. -/
def frameOf (n : Node) : Node :=
  { n with classList := [], attrs := n.attrs.filter (fun kv => kv.1 != "href") }

/-- Document `x` differs from `d` at most in class lists and `href` attributes, and
has class `chapter-item` on the same elements. -/
def Similar (d x : Elem) : Prop :=
  (∀ r, (nodeAt x r).map frameOf = (nodeAt d r).map frameOf) ∧
    ∀ r, "chapter-item" ∈ classList x r ↔ "chapter-item" ∈ classList d r

/-- Element `r` is the previous element sibling of an `LI` among `a` and its ancestors. -/
def ExpandTarget (d : Elem) (a r : Ref) : Prop :=
  ∃ a', a' <:+ a ∧ tagName d a' = "LI" ∧ previousElementSibling a' = some r

/-- Marking `link` as the current page adds the class `c` to the element `r`. -/
def Marks (d : Elem) (link r : Ref) (c : String) : Prop :=
  (c = "active" ∧ r = link ∧ connected d link = true) ∨
    (c = "expanded" ∧ "chapter-item" ∈ classList d r ∧
      ∃ parent, parentElement link = some parent ∧ (r = parent ∨ ExpandTarget d parent r))

/-- The `href` attribute of a link after line 23, from its value before. -/
def newHref (env : Env) (href : Option String) : Option String :=
  match href with
  | some h => if isRelativeHref href then some (env.path_to_root ++ h) else href
  | none => none

/-- The `href` property of a link whose `href` attribute is given. -/
def hrefOfAttr (env : Env) (href : Option String) : String :=
  match href with
  | some h => env.resolve h
  | none => ""

/-- The condition of line 26 for the link of index `i`, from the `href` attribute the
link has before line 23. -/
def IsCurrent (env : Env) (i : Nat) (href : Option String) : Prop :=
  hrefOfAttr env (newHref env href) = currentPage env.href ∨
    (i = 0 ∧ env.path_to_root = "" ∧ endsWith (currentPage env.href) "/index.html" = true)

/-- The loop body applied to a list of links in turn, the first having index `i`. -/
def runLinks (env : Env) : List Ref → Nat → Elem → Elem
  | [], _, d => d
  | link :: links, i, d => runLinks env links (i + 1) (linkBody env i link d)

/-- The claim of the regular expression on line 22 in words: the string starts with
two slashes, possibly after a scheme made of one or more characters of `[a-z+]` and a
colon. -/
def HasSchemeSlashes (s : String) : Prop :=
  ∃ scheme rest : List Char,
    (s.data = '/' :: '/' :: rest) ∨
      (scheme ≠ [] ∧ (∀ c ∈ scheme, isSchemeChar c = true) ∧
        s.data = scheme ++ ':' :: '/' :: '/' :: rest)

/-- The part of a string after its last slash. -/
def lastSegment (s : String) : String :=
  ⟨(s.data.reverse.takeWhile (fun c => c != '/')).reverse⟩

/-- The scroll box with the table of contents as its content, on its own. -/
def tocRoot : Elem := .mk { tagName := "MDBOOK-SIDEBAR-SCROLLBOX" } tocMarkup

/-- The links of the table of contents, as references relative to the scroll box. -/
def tocLinks : List Ref := querySelectorAllA tocRoot []

/-- The `href` attributes of the table of contents, as written in the markup. -/
def tocHrefs : List (Option String) := tocLinks.map (fun s => getAttribute tocRoot s "href")

/-- Document `x` has the attributes of `d` on every element. -/
def SameAttrs (d x : Elem) : Prop :=
  ∀ r, (nodeAt x r).map Node.attrs = (nodeAt d r).map Node.attrs

/-- Lines 21 to 24: the rewriting of the `href` attribute of a link. -/
def rewriteHref (env : Env) (link : Ref) (d : Elem) : Elem :=
  match getAttribute d link "href" with
  | some h =>
    if isRelativeHref (getAttribute d link "href") then setHref d link (env.path_to_root ++ h)
    else d
  | none => d

/-- Documents `d` and `x` agree on the part `φ` of the own data of every element. -/
def AgreeOn {β : Type} (φ : Node → β) (d x : Elem) : Prop :=
  ∀ r, (nodeAt x r).map φ = (nodeAt d r).map φ

/-- The document after line 11. -/
def injected (pg : Page) (this : Ref) : Elem := setInnerHTML pg.document this tocMarkup

/-- The array `links` of line 17. -/
def linksOf (pg : Page) (this : Ref) : List Ref := querySelectorAllA (injected pg this) this

/-- The document after the loop over the links (line 41). -/
def afterLinks (env : Env) (this : Ref) (pg : Page) : Elem :=
  runLinks env (linksOf pg this) 0 (injected pg this)

/-- Lines 43 to 59 as a function of the document. -/
def afterScroll (env : Env) (this : Ref) (pg : Page) (d : Elem) : Elem × List Ref :=
  restoreScroll env this (getItem pg.sessionStorage "sidebar-scroll")
    (addClickListener d this .saveScroll) pg.scrolledIntoView

/-- The document the callback leaves. -/
def finalDocument (env : Env) (this : Ref) (pg : Page) : Elem :=
  registerToggles (afterScroll env this pg (afterLinks env this pg)).1

/-- The first link of the table of contents, relative to the scroll box. -/
def firstLink : Ref := [0, 0, 0]

/-- Document `x` is obtained from `d` by changing the own data of elements, one element
at a time: the tree keeps its shape. -/
inductive Updates : Elem → Elem → Prop where
  | same (d : Elem) : Updates d d
  | step {d x : Elem} (s : Ref) (g : Node → Node) : Updates d x → Updates d (updateNode x s g)

/-- The page the callback leaves. -/
def firstRun (env : Env) (this : Ref) (pg : Page) : Page :=
  { document := finalDocument env this pg,
    sessionStorage := removeItem pg.sessionStorage "sidebar-scroll",
    scrolledIntoView := (afterScroll env this pg (afterLinks env this pg)).2 }

/-! ## Trees: reading after writing -/

theorem getElem?_modifyAt {α : Type} (f : α → α) (i j : Nat) (l : List α) :
    (modifyAt f i l)[j]? = if j = i then l[j]?.map f else l[j]? := by
  induction l generalizing i j with
  | nil => cases i <;> simp [modifyAt]
  | cons a as ih =>
    cases i with
    | zero => cases j <;> simp [modifyAt]
    | succ i =>
      cases j with
      | zero => simp [modifyAt]
      | succ j => simp [modifyAt, ih]

theorem Elem.getPath_updatePath_append (f : Elem → Elem) (d : Elem) (p q : List Nat) :
    (d.updatePath f p).getPath (p ++ q) = (d.getPath p).bind (fun e => (f e).getPath q) := by
  induction p generalizing d with
  | nil => simp [Elem.getPath, Elem.updatePath]
  | cons i p ih =>
    cases d with
    | mk n cs =>
      simp only [List.cons_append, Elem.getPath, Elem.updatePath, Elem.children,
        getElem?_modifyAt, if_true]
      cases cs[i]? with
      | none => simp
      | some c => simpa using ih c

theorem Elem.getPath_children_congr (d e : Elem) (h : d.children = e.children) (j : Nat)
    (q : List Nat) : d.getPath (j :: q) = e.getPath (j :: q) := by
  simp [Elem.getPath, h]

/-- Updating the element at `p` with a function that keeps the children leaves the own
data of every other element as it was. -/
theorem Elem.node_getPath_updatePath (f : Elem → Elem)
    (hf : ∀ e, (f e).children = e.children) (d : Elem) (p q : List Nat) :
    ((d.updatePath f p).getPath q).map Elem.node =
      if q = p then (d.getPath p).map (fun e => (f e).node) else (d.getPath q).map Elem.node := by
  induction p generalizing d q with
  | nil =>
    cases q with
    | nil => simp [Elem.getPath, Elem.updatePath]
    | cons j q =>
      simp only [Elem.updatePath, if_false, List.cons_ne_nil]
      rw [Elem.getPath_children_congr (f d) d (hf d)]
  | cons i p ih =>
    cases d with
    | mk n cs =>
      cases q with
      | nil => simp [Elem.getPath, Elem.updatePath, Elem.node]
      | cons j q =>
        simp only [Elem.getPath, Elem.updatePath, Elem.children, getElem?_modifyAt,
          List.cons.injEq]
        by_cases hji : j = i
        · subst hji
          simp only [if_true, true_and]
          cases cs[j]? with
          | none => simp
          | some c => simpa using ih c q
        · simp [hji]

/-- Updating the element at `p` with a function that keeps the own data leaves the own
data of every element that is not a proper descendant of `p` as it was. -/
theorem Elem.node_getPath_updatePath_outside (f : Elem → Elem)
    (hf : ∀ e, (f e).node = e.node) (d : Elem) (p q : List Nat)
    (hq : ¬ ∃ s, s ≠ [] ∧ q = p ++ s) :
    ((d.updatePath f p).getPath q).map Elem.node = (d.getPath q).map Elem.node := by
  induction p generalizing d q with
  | nil =>
    cases q with
    | nil => simp [Elem.getPath, Elem.updatePath, hf]
    | cons j q => exact absurd ⟨j :: q, by simp, by simp⟩ hq
  | cons i p ih =>
    cases d with
    | mk n cs =>
      cases q with
      | nil => simp [Elem.getPath, Elem.updatePath, Elem.node]
      | cons j q =>
        simp only [Elem.getPath, Elem.updatePath, Elem.children, getElem?_modifyAt]
        by_cases hji : j = i
        · subst hji
          simp only [if_true]
          have hq' : ¬ ∃ s, s ≠ [] ∧ q = p ++ s := by
            rintro ⟨s, hs, rfl⟩
            exact hq ⟨s, hs, by simp⟩
          cases cs[j]? with
          | none => simp
          | some c => simpa using ih c q hq'
        · simp [hji]

theorem Elem.refsList_modifyAt (F : Elem → Elem)
    (hF : ∀ c h, Elem.refs (F c) h = Elem.refs c h) (i : Nat) (cs : List Elem) (here : Ref)
    (k : Nat) : Elem.refsList (modifyAt F i cs) here k = Elem.refsList cs here k := by
  induction cs generalizing i k with
  | nil => cases i <;> simp [modifyAt]
  | cons c cs ih =>
    cases i with
    | zero => simp [modifyAt, Elem.refsList, hF]
    | succ i => simp [modifyAt, Elem.refsList, ih]

/-- An update that keeps the children of the element it changes keeps the list of
references of the tree. -/
theorem Elem.refs_updatePath (f : Elem → Elem) (hf : ∀ e, (f e).children = e.children)
    (d : Elem) (p : List Nat) (here : Ref) :
    Elem.refs (d.updatePath f p) here = Elem.refs d here := by
  induction p generalizing d here with
  | nil =>
    have h := hf d
    cases d with
    | mk n cs =>
      cases hfd : f (.mk n cs) with
      | mk n' cs' =>
        rw [hfd] at h
        simp only [Elem.children] at h
        simp [Elem.updatePath, hfd, Elem.refs, h]
  | cons i p ih =>
    cases d with
    | mk n cs =>
      simp only [Elem.updatePath, Elem.refs]
      rw [Elem.refsList_modifyAt _ (fun c h => ih c h)]

mutual
/-- The references listed for a tree placed at `a ++ here` are those listed for it
placed at `a`, followed by `here`. -/
theorem Elem.refs_append (e : Elem) (a here : Ref) :
    Elem.refs e (a ++ here) = (Elem.refs e a).map (fun s => s ++ here) := by
  cases e with
  | mk n cs =>
    simp only [Elem.refs, List.map_cons]
    rw [Elem.refsList_append cs a here 0]
theorem Elem.refsList_append (cs : List Elem) (a here : Ref) (i : Nat) :
    Elem.refsList cs (a ++ here) i = (Elem.refsList cs a i).map (fun s => s ++ here) := by
  cases cs with
  | nil => simp [Elem.refsList]
  | cons c cs =>
    simp only [Elem.refsList, List.map_append]
    rw [← List.cons_append, Elem.refs_append c (i :: a) here, Elem.refsList_append cs a here (i + 1)]
end

/-! ## References: reading after writing -/

theorem nodeAt_updateNode (d : Elem) (s r : Ref) (g : Node → Node) :
    nodeAt (updateNode d s g) r = if r = s then (nodeAt d s).map g else nodeAt d r := by
  have h := Elem.node_getPath_updatePath (fun e => Elem.mk (g e.node) e.children)
    (fun e => rfl) d s.reverse r.reverse
  simp only [List.reverse_inj] at h
  simp only [nodeAt, updateNode, Elem.update, Elem.get?]
  rw [h]
  split
  · cases d.getPath s.reverse <;> rfl
  · rfl

theorem refs_updateNode (d : Elem) (s : Ref) (g : Node → Node) (here : Ref) :
    Elem.refs (updateNode d s g) here = Elem.refs d here :=
  Elem.refs_updatePath (fun e => Elem.mk (g e.node) e.children) (fun _ => rfl) d s.reverse here

theorem nodeAt_setInnerHTML_outside (d : Elem) (this r : Ref) (m : List Elem)
    (hr : ¬ ∃ s, s ≠ [] ∧ r = s ++ this) :
    nodeAt (setInnerHTML d this m) r = nodeAt d r := by
  apply Elem.node_getPath_updatePath_outside (fun e => Elem.mk e.node m) (fun e => rfl)
  rintro ⟨s, hs, h⟩
  refine hr ⟨s.reverse, by simpa using hs, ?_⟩
  have := congrArg List.reverse h
  simpa using this

theorem get?_setInnerHTML_inside (d : Elem) (this s : Ref) (m : List Elem) :
    (setInnerHTML d this m).get? (s ++ this) =
      (d.get? this).bind (fun e => (Elem.mk e.node m).get? s) := by
  simp only [setInnerHTML, Elem.update, Elem.get?, List.reverse_append]
  exact Elem.getPath_updatePath_append _ d this.reverse s.reverse

theorem get?_mk_congr (n n' : Node) (m : List Elem) (s : Ref) (hs : s ≠ []) :
    (Elem.mk n m).get? s = (Elem.mk n' m).get? s := by
  simp only [Elem.get?]
  cases h : s.reverse with
  | nil => simp at h; exact absurd h hs
  | cons j q => exact Elem.getPath_children_congr _ _ rfl j q

/-! ## The primitive operations -/

theorem map_nodeAt_updateNode {β : Type} (φ : Node → β) (g : Node → Node)
    (hg : ∀ n, φ (g n) = φ n) (d : Elem) (s r : Ref) :
    (nodeAt (updateNode d s g) r).map φ = (nodeAt d r).map φ := by
  rw [nodeAt_updateNode]
  split
  · next h => subst h; cases nodeAt d r <;> simp [hg]
  · rfl

theorem mem_classList_classListAdd (d : Elem) (s r : Ref) (t c : String) :
    c ∈ classList (classListAdd d s t) r ↔
      c ∈ classList d r ∨ (r = s ∧ c = t ∧ connected d s = true) := by
  simp only [classList, classListAdd, nodeAt_updateNode, connected]
  by_cases hrs : r = s
  · subst hrs
    cases h : nodeAt d r with
    | none => simp
    | some n =>
      simp only [if_true, Option.map_some', Option.isSome_some, and_true, true_and]
      by_cases hc : n.classList.contains t = true
      · simp only [hc, if_true]
        constructor
        · exact Or.inl
        · rintro (h | h)
          · exact h
          · subst h; simpa using hc
      · simp only [hc, List.mem_append, List.mem_singleton]
        simp
  · simp [hrs]

theorem frame_classListAdd (d : Elem) (s r : Ref) (t : String) :
    (nodeAt (classListAdd d s t) r).map frameOf = (nodeAt d r).map frameOf := by
  apply map_nodeAt_updateNode
  intro n
  rfl

theorem attrs_classListAdd (d : Elem) (s r : Ref) (t : String) :
    (nodeAt (classListAdd d s t) r).map Node.attrs = (nodeAt d r).map Node.attrs := by
  apply map_nodeAt_updateNode
  intro n
  rfl

theorem getAttribute_eq_of_attrs {d x : Elem} {r : Ref}
    (h : (nodeAt x r).map Node.attrs = (nodeAt d r).map Node.attrs) (name : String) :
    getAttribute x r name = getAttribute d r name := by
  simp only [getAttribute]
  cases hx : nodeAt x r <;> cases hd : nodeAt d r <;> simp [hx, hd] at h ⊢
  rw [h]

theorem tagName_eq_of_frame {d x : Elem} {r : Ref}
    (h : (nodeAt x r).map frameOf = (nodeAt d r).map frameOf) : tagName x r = tagName d r := by
  simp only [tagName]
  cases hx : nodeAt x r <;> cases hd : nodeAt d r <;> simp [hx, hd] at h ⊢
  have h2 := congrArg Node.tagName h
  exact h2

theorem scrollTop_eq_of_frame {d x : Elem} {r : Ref}
    (h : (nodeAt x r).map frameOf = (nodeAt d r).map frameOf) :
    scrollTop x r = scrollTop d r := by
  simp only [scrollTop]
  cases hx : nodeAt x r <;> cases hd : nodeAt d r <;> simp [hx, hd] at h ⊢
  have h2 := congrArg Node.scrollTop h
  exact h2

theorem clickListeners_eq_of_frame {d x : Elem} {r : Ref}
    (h : (nodeAt x r).map frameOf = (nodeAt d r).map frameOf) :
    clickListeners x r = clickListeners d r := by
  simp only [clickListeners]
  cases hx : nodeAt x r <;> cases hd : nodeAt d r <;> simp [hx, hd] at h ⊢
  have h2 := congrArg Node.clickListeners h
  exact h2

theorem connected_eq_of_frame {d x : Elem} {r : Ref}
    (h : (nodeAt x r).map frameOf = (nodeAt d r).map frameOf) :
    connected x r = connected d r := by
  simp only [connected]
  cases hx : nodeAt x r <;> cases hd : nodeAt d r <;> simp [hx, hd] at h ⊢

theorem lookup_filter_ne (attrs : List (String × String)) (name other : String)
    (h : name ≠ other) :
    (attrs.filter (fun kv => kv.1 != other)).lookup name = attrs.lookup name := by
  induction attrs with
  | nil => rfl
  | cons kv attrs ih =>
    obtain ⟨k, v⟩ := kv
    by_cases hk : k = other
    · subst hk
      have : (name == k) = false := by simpa using h
      simp [List.filter, List.lookup, this, ih]
    · have hk' : (k != other) = true := by simpa using hk
      simp only [List.filter, hk', List.lookup]
      rw [ih]

theorem getAttribute_eq_of_frame {d x : Elem} {r : Ref}
    (h : (nodeAt x r).map frameOf = (nodeAt d r).map frameOf) (name : String)
    (hn : name ≠ "href") : getAttribute x r name = getAttribute d r name := by
  simp only [getAttribute]
  cases hx : nodeAt x r <;> cases hd : nodeAt d r <;> simp [hx, hd] at h ⊢
  have := congrArg (fun n => n.attrs.lookup name) h
  simpa [frameOf, lookup_filter_ne _ _ _ hn] using this

theorem classList_eq_nil_of_not_connected {d : Elem} {r : Ref} (h : connected d r = false) :
    classList d r = [] := by
  simp only [connected] at h
  simp only [classList]
  cases hd : nodeAt d r <;> simp [hd] at h ⊢

theorem connected_of_mem_classList {d : Elem} {r : Ref} {c : String}
    (h : c ∈ classList d r) : connected d r = true := by
  by_contra hc
  rw [classList_eq_nil_of_not_connected (by simpa using hc)] at h
  simp at h

theorem lookup_setAttr_self (attrs : List (String × String)) (name value : String) :
    (setAttr attrs name value).lookup name = some value := by
  induction attrs with
  | nil => simp [setAttr, List.lookup]
  | cons kv attrs ih =>
    obtain ⟨k, v⟩ := kv
    by_cases hk : k = name
    · subst hk
      simp [setAttr, List.lookup]
    · have hk1 : (k == name) = false := by simpa using hk
      have hk2 : (name == k) = false := by simpa using fun h => hk h.symm
      by_cases hany : attrs.any (fun kv => kv.1 == name) = true
      · have := ih
        simp only [setAttr, hany, if_true] at this
        simp only [setAttr, List.any_cons, hk1, Bool.false_or, hany, if_true, List.map_cons,
          List.lookup, hk2]
        simpa using this
      · have := ih
        simp only [setAttr, hany] at this
        simp only [setAttr, List.any_cons, hk1, Bool.false_or, hany, List.cons_append,
          List.lookup, hk2]
        simpa using this

theorem filter_setAttr (attrs : List (String × String)) (name value : String) :
    (setAttr attrs name value).filter (fun kv => kv.1 != name) =
      attrs.filter (fun kv => kv.1 != name) := by
  have hmap : (attrs.map (fun kv => if kv.1 == name then (name, value) else kv)).filter
      (fun kv => kv.1 != name) = attrs.filter (fun kv => kv.1 != name) := by
    induction attrs with
    | nil => rfl
    | cons kv attrs ih =>
      by_cases hk : kv.1 = name
      · have hk1 : (kv.1 == name) = true := by simpa using hk
        have hk2 : (kv.1 != name) = false := by simpa using hk
        have hk3 : (name != name) = false := by simp
        rw [List.map_cons, List.filter_cons, List.filter_cons, ih]
        simp [hk1, hk2, hk3]
      · have hk1 : (kv.1 == name) = false := by simpa using hk
        have hk2 : (kv.1 != name) = true := by simpa using hk
        rw [List.map_cons, List.filter_cons, List.filter_cons, ih]
        simp [hk1, hk2]
  simp only [setAttr]
  split
  · exact hmap
  · simp [List.filter_append, List.filter]

theorem frame_setHref (d : Elem) (s r : Ref) (v : String) :
    (nodeAt (setHref d s v) r).map frameOf = (nodeAt d r).map frameOf := by
  apply map_nodeAt_updateNode
  intro n
  simp only [frameOf, filter_setAttr]

theorem classList_setHref (d : Elem) (s r : Ref) (v : String) :
    classList (setHref d s v) r = classList d r := by
  have h := map_nodeAt_updateNode Node.classList
    (fun n => { n with attrs := setAttr n.attrs "href" v }) (fun _ => rfl) d s r
  simp only [classList, setHref]
  cases hx : nodeAt (updateNode d s fun n => { n with attrs := setAttr n.attrs "href" v }) r <;>
    cases hd : nodeAt d r <;> simp [hx, hd] at h ⊢
  exact h

theorem getAttribute_setHref (d : Elem) (s r : Ref) (v : String) :
    getAttribute (setHref d s v) r "href" =
      if r = s ∧ connected d s = true then some v else getAttribute d r "href" := by
  simp only [getAttribute, setHref, nodeAt_updateNode, connected]
  by_cases hrs : r = s
  · subst hrs
    cases h : nodeAt d r with
    | none => simp
    | some n => simp [lookup_setAttr_self]
  · simp [hrs]

/-! ## Marking the current page -/

theorem Similar.sim_refl (d : Elem) : Similar d d := ⟨fun _ => rfl, fun _ => Iff.rfl⟩

theorem Similar.sim_trans {d x y : Elem} (h1 : Similar d x) (h2 : Similar x y) : Similar d y :=
  ⟨fun r => (h2.1 r).trans (h1.1 r), fun r => (h2.2 r).trans (h1.2 r)⟩

theorem Similar.sim_tagName {d x : Elem} (h : Similar d x) (r : Ref) : tagName x r = tagName d r :=
  tagName_eq_of_frame (h.1 r)

theorem Similar.sim_connected {d x : Elem} (h : Similar d x) (r : Ref) :
    connected x r = connected d r :=
  connected_eq_of_frame (h.1 r)

theorem SameAttrs.attrs_refl (d : Elem) : SameAttrs d d := fun _ => rfl

theorem SameAttrs.attrs_trans {d x y : Elem} (h1 : SameAttrs d x) (h2 : SameAttrs x y) :
    SameAttrs d y := fun r => (h2 r).trans (h1 r)

theorem similar_classListAdd (d : Elem) (s : Ref) (t : String) (ht : t ≠ "chapter-item") :
    Similar d (classListAdd d s t) := by
  refine ⟨fun r => frame_classListAdd d s r t, fun r => ?_⟩
  rw [mem_classList_classListAdd]
  constructor
  · rintro (h | ⟨_, h, _⟩)
    · exact h
    · exact absurd h.symm ht
  · exact Or.inl

theorem similar_setHref (d : Elem) (s : Ref) (v : String) : Similar d (setHref d s v) :=
  ⟨fun r => frame_setHref d s r v, fun r => by rw [classList_setHref]⟩

theorem ExpandTarget.target_congr {d x : Elem} (h : Similar d x) (a r : Ref) :
    ExpandTarget x a r ↔ ExpandTarget d a r := by
  simp only [ExpandTarget, h.sim_tagName]

theorem Marks.marks_congr {d x : Elem} (h : Similar d x) (link r : Ref) (c : String) :
    Marks x link r c ↔ Marks d link r c := by
  simp only [Marks, h.sim_connected, h.2 r, ExpandTarget.target_congr h]

theorem classListContains_iff (d : Elem) (r : Ref) (c : String) :
    classListContains d r c = true ↔ c ∈ classList d r := by
  simp [classListContains]

theorem similar_expandPrevious (a : Ref) (d : Elem) : Similar d (expandPrevious a d) := by
  unfold expandPrevious
  split
  · split
    · split
      · exact similar_classListAdd _ _ _ (by decide)
      · exact Similar.sim_refl d
    · exact Similar.sim_refl d
  · exact Similar.sim_refl d

theorem sameAttrs_expandPrevious (a : Ref) (d : Elem) : SameAttrs d (expandPrevious a d) := by
  unfold expandPrevious
  split
  · split
    · split
      · exact fun r => attrs_classListAdd _ _ _ _
      · exact SameAttrs.attrs_refl d
    · exact SameAttrs.attrs_refl d
  · exact SameAttrs.attrs_refl d

theorem mem_expandPrevious (a : Ref) (d : Elem) (r : Ref) (c : String) :
    c ∈ classList (expandPrevious a d) r ↔
      c ∈ classList d r ∨
        (c = "expanded" ∧ "chapter-item" ∈ classList d r ∧ tagName d a = "LI" ∧
          previousElementSibling a = some r) := by
  unfold expandPrevious
  by_cases htag : tagName d a = "LI"
  · simp only [htag, if_true, true_and]
    cases hsib : previousElementSibling a with
    | none => simp
    | some sib =>
      simp only [Option.some.injEq]
      by_cases hci : classListContains d sib "chapter-item" = true
      · simp only [hci, if_true, mem_classList_classListAdd]
        rw [classListContains_iff] at hci
        constructor
        · rintro (h | ⟨rfl, rfl, _⟩)
          · exact Or.inl h
          · exact Or.inr ⟨rfl, hci, rfl⟩
        · rintro (h | ⟨rfl, _, rfl⟩)
          · exact Or.inl h
          · exact Or.inr ⟨rfl, rfl, connected_of_mem_classList hci⟩
      · simp only [hci]
        rw [classListContains_iff] at hci
        constructor
        · exact Or.inl
        · rintro (h | ⟨_, h, rfl⟩)
          · exact h
          · exact absurd h hci
  · simp [htag]

theorem similar_ancestorWalk (a : Ref) (d : Elem) : Similar d (ancestorWalk a d) := by
  induction a generalizing d with
  | nil => exact similar_expandPrevious [] d
  | cons k up ih => exact (similar_expandPrevious (k :: up) d).sim_trans (ih _)

theorem sameAttrs_ancestorWalk (a : Ref) (d : Elem) : SameAttrs d (ancestorWalk a d) := by
  induction a generalizing d with
  | nil => exact sameAttrs_expandPrevious [] d
  | cons k up ih => exact (sameAttrs_expandPrevious (k :: up) d).attrs_trans (ih _)

theorem mem_ancestorWalk (a : Ref) (d : Elem) (r : Ref) (c : String) :
    c ∈ classList (ancestorWalk a d) r ↔
      c ∈ classList d r ∨
        (c = "expanded" ∧ "chapter-item" ∈ classList d r ∧ ExpandTarget d a r) := by
  induction a generalizing d with
  | nil =>
    simp only [ancestorWalk, mem_expandPrevious, ExpandTarget, List.suffix_nil]
    constructor
    · rintro (h | ⟨h1, h2, h3, h4⟩)
      · exact Or.inl h
      · exact Or.inr ⟨h1, h2, [], rfl, h3, h4⟩
    · rintro (h | ⟨h1, h2, a', rfl, h3, h4⟩)
      · exact Or.inl h
      · exact Or.inr ⟨h1, h2, h3, h4⟩
  | cons k up ih =>
    have hs := similar_expandPrevious (k :: up) d
    simp only [ancestorWalk]
    rw [ih, mem_expandPrevious, hs.2 r, ExpandTarget.target_congr hs]
    simp only [ExpandTarget, List.suffix_cons_iff]
    constructor
    · rintro ((h | ⟨h1, h2, h3, h4⟩) | ⟨h1, h2, a', h3, h4, h5⟩)
      · exact Or.inl h
      · exact Or.inr ⟨h1, h2, k :: up, Or.inl rfl, h3, h4⟩
      · exact Or.inr ⟨h1, h2, a', Or.inr h3, h4, h5⟩
    · rintro (h | ⟨h1, h2, a', h3 | h3, h4, h5⟩)
      · exact Or.inl (Or.inl h)
      · subst h3
        exact Or.inl (Or.inr ⟨h1, h2, h4, h5⟩)
      · exact Or.inr ⟨h1, h2, a', h3, h4, h5⟩

theorem similar_markActive (link : Ref) (d : Elem) : Similar d (markActive link d) := by
  unfold markActive
  have h1 : Similar d (classListAdd d link "active") := similar_classListAdd _ _ _ (by decide)
  cases link with
  | nil => exact h1
  | cons k parent =>
    simp only [parentElement]
    refine Similar.sim_trans ?_ (similar_ancestorWalk _ _)
    split
    · exact h1.sim_trans (similar_classListAdd _ _ _ (by decide))
    · exact h1

theorem sameAttrs_markActive (link : Ref) (d : Elem) : SameAttrs d (markActive link d) := by
  unfold markActive
  have h1 : SameAttrs d (classListAdd d link "active") := fun r => attrs_classListAdd _ _ _ _
  cases link with
  | nil => exact h1
  | cons k parent =>
    simp only [parentElement]
    refine SameAttrs.attrs_trans ?_ (sameAttrs_ancestorWalk _ _)
    split
    · exact h1.attrs_trans (fun r => attrs_classListAdd _ _ _ _)
    · exact h1

theorem mem_markActive (link : Ref) (d : Elem) (r : Ref) (c : String) :
    c ∈ classList (markActive link d) r ↔ c ∈ classList d r ∨ Marks d link r c := by
  have h1 : Similar d (classListAdd d link "active") := similar_classListAdd _ _ _ (by decide)
  unfold markActive Marks
  cases link with
  | nil =>
    simp only [parentElement, mem_classList_classListAdd]
    constructor
    · rintro (h | ⟨h1, h2, h3⟩)
      · exact Or.inl h
      · exact Or.inr (Or.inl ⟨h2, h1, h3⟩)
    · rintro (h | ⟨h1, h2, h3⟩ | ⟨_, _, p, hp, _⟩)
      · exact Or.inl h
      · exact Or.inr ⟨h2, h1, h3⟩
      · simp at hp
  | cons k parent =>
    simp only [parentElement, Option.some.injEq, exists_eq_left']
    have hci : classListContains (classListAdd d (k :: parent) "active") parent "chapter-item"
        = true ↔ "chapter-item" ∈ classList d parent := by
      rw [classListContains_iff, h1.2]
    by_cases hp : "chapter-item" ∈ classList d parent
    · have h2 : Similar d (classListAdd (classListAdd d (k :: parent) "active") parent
          "expanded") := h1.sim_trans (similar_classListAdd _ _ _ (by decide))
      rw [if_pos (hci.2 hp)]
      rw [mem_ancestorWalk, h2.2 r, ExpandTarget.target_congr h2, mem_classList_classListAdd,
        mem_classList_classListAdd]
      constructor
      · rintro (((h | ⟨h3, h4, h5⟩) | ⟨h3, h4, h5⟩) | ⟨h3, h4, h5⟩)
        · exact Or.inl h
        · exact Or.inr (Or.inl ⟨h4, h3, h5⟩)
        · subst h3
          exact Or.inr (Or.inr ⟨h4, hp, Or.inl rfl⟩)
        · exact Or.inr (Or.inr ⟨h3, h4, Or.inr h5⟩)
      · rintro (h | ⟨h3, h4, h5⟩ | ⟨h3, h4, h5 | h5⟩)
        · exact Or.inl (Or.inl (Or.inl h))
        · exact Or.inl (Or.inl (Or.inr ⟨h4, h3, h5⟩))
        · refine Or.inl (Or.inr ⟨h5, h3, ?_⟩)
          rw [h1.sim_connected]
          exact connected_of_mem_classList hp
        · exact Or.inr ⟨h3, h4, h5⟩
    · have hci' : ¬ classListContains (classListAdd d (k :: parent) "active") parent
          "chapter-item" = true := fun h => hp (hci.1 h)
      rw [if_neg hci']
      rw [mem_ancestorWalk, h1.2 r, ExpandTarget.target_congr h1, mem_classList_classListAdd]
      constructor
      · rintro ((h | ⟨h3, h4, h5⟩) | ⟨h3, h4, h5⟩)
        · exact Or.inl h
        · exact Or.inr (Or.inl ⟨h4, h3, h5⟩)
        · exact Or.inr (Or.inr ⟨h3, h4, Or.inr h5⟩)
      · rintro (h | ⟨h3, h4, h5⟩ | ⟨h3, h4, h5 | h5⟩)
        · exact Or.inl (Or.inl h)
        · exact Or.inl (Or.inr ⟨h4, h3, h5⟩)
        · subst h5
          exact absurd h4 hp
        · exact Or.inr ⟨h3, h4, h5⟩

/-! ## The loop over the links -/

theorem similar_rewriteHref (env : Env) (link : Ref) (d : Elem) :
    Similar d (rewriteHref env link d) := by
  unfold rewriteHref
  split
  · split
    · exact similar_setHref _ _ _
    · exact Similar.sim_refl d
  · exact Similar.sim_refl d

theorem classList_rewriteHref (env : Env) (link : Ref) (d : Elem) (r : Ref) :
    classList (rewriteHref env link d) r = classList d r := by
  unfold rewriteHref
  split
  · split
    · exact classList_setHref _ _ _ _
    · rfl
  · rfl

theorem connected_of_getAttribute {d : Elem} {r : Ref} {name v : String}
    (h : getAttribute d r name = some v) : connected d r = true := by
  simp only [getAttribute] at h
  simp only [connected]
  cases hd : nodeAt d r <;> simp [hd] at h ⊢

theorem getAttribute_rewriteHref (env : Env) (link : Ref) (d : Elem) (r : Ref) :
    getAttribute (rewriteHref env link d) r "href" =
      if r = link then newHref env (getAttribute d link "href")
      else getAttribute d r "href" := by
  unfold rewriteHref newHref
  cases hh : getAttribute d link "href" with
  | none =>
    simp only
    split
    · next h => subst h; exact hh
    · rfl
  | some h =>
    simp only
    by_cases hrel : isRelativeHref (some h) = true
    · simp only [hrel, if_true, getAttribute_setHref, connected_of_getAttribute hh, and_true]
    · have hrel' : isRelativeHref (some h) = false := by simpa using hrel
      simp only [hrel', Bool.false_eq_true, if_false]
      by_cases h' : r = link
      · subst h'
        simp [hh]
      · simp [h']

theorem hrefProperty_rewriteHref (env : Env) (link : Ref) (d : Elem) :
    hrefProperty env (rewriteHref env link d) link =
      hrefOfAttr env (newHref env (getAttribute d link "href")) := by
  simp only [hrefProperty, hrefOfAttr, getAttribute_rewriteHref, if_true]

theorem linkBody_of_current (env : Env) (i : Nat) (link : Ref) (d : Elem)
    (h : IsCurrent env i (getAttribute d link "href")) :
    linkBody env i link d = markActive link (rewriteHref env link d) := by
  have h' := h
  simp only [IsCurrent, ← hrefProperty_rewriteHref] at h'
  simp only [linkBody]
  exact if_pos h'

theorem linkBody_of_not_current (env : Env) (i : Nat) (link : Ref) (d : Elem)
    (h : ¬ IsCurrent env i (getAttribute d link "href")) :
    linkBody env i link d = rewriteHref env link d := by
  have h' := h
  simp only [IsCurrent, ← hrefProperty_rewriteHref] at h'
  simp only [linkBody]
  exact if_neg h'

theorem similar_linkBody (env : Env) (i : Nat) (link : Ref) (d : Elem) :
    Similar d (linkBody env i link d) := by
  by_cases h : IsCurrent env i (getAttribute d link "href")
  · rw [linkBody_of_current env i link d h]
    exact (similar_rewriteHref env link d).sim_trans (similar_markActive _ _)
  · rw [linkBody_of_not_current env i link d h]
    exact similar_rewriteHref env link d

theorem getAttribute_linkBody (env : Env) (i : Nat) (link : Ref) (d : Elem) (r : Ref) :
    getAttribute (linkBody env i link d) r "href" =
      if r = link then newHref env (getAttribute d link "href")
      else getAttribute d r "href" := by
  by_cases h : IsCurrent env i (getAttribute d link "href")
  · rw [linkBody_of_current env i link d h,
      getAttribute_eq_of_attrs (sameAttrs_markActive _ _ r), getAttribute_rewriteHref]
  · rw [linkBody_of_not_current env i link d h, getAttribute_rewriteHref]

theorem mem_linkBody (env : Env) (i : Nat) (link : Ref) (d : Elem) (r : Ref) (c : String) :
    c ∈ classList (linkBody env i link d) r ↔
      c ∈ classList d r ∨ (IsCurrent env i (getAttribute d link "href") ∧ Marks d link r c) := by
  by_cases h : IsCurrent env i (getAttribute d link "href")
  · rw [linkBody_of_current env i link d h, mem_markActive,
      Marks.marks_congr (similar_rewriteHref env link d), classList_rewriteHref]
    simp [h]
  · rw [linkBody_of_not_current env i link d h, classList_rewriteHref]
    simp [h]

theorem similar_runLinks (env : Env) (links : List Ref) (i : Nat) (d : Elem) :
    Similar d (runLinks env links i d) := by
  induction links generalizing i d with
  | nil => exact Similar.sim_refl d
  | cons link links ih => exact (similar_linkBody env i link d).sim_trans (ih _ _)

theorem getAttribute_runLinks (env : Env) (links : List Ref) (hn : links.Nodup) (i : Nat)
    (d : Elem) (r : Ref) :
    getAttribute (runLinks env links i d) r "href" =
      if r ∈ links then newHref env (getAttribute d r "href") else getAttribute d r "href" := by
  induction links generalizing i d with
  | nil => simp [runLinks]
  | cons link links ih =>
    have hn' := List.nodup_cons.1 hn
    simp only [runLinks]
    rw [ih hn'.2, getAttribute_linkBody]
    by_cases hr : r = link
    · subst hr
      simp [hn'.1]
    · simp [hr]

theorem mem_runLinks (env : Env) (links : List Ref) (hn : links.Nodup) (i : Nat) (d : Elem)
    (r : Ref) (c : String) :
    c ∈ classList (runLinks env links i d) r ↔
      c ∈ classList d r ∨
        ∃ j link, links[j]? = some link ∧
          IsCurrent env (i + j) (getAttribute d link "href") ∧ Marks d link r c := by
  induction links generalizing i d with
  | nil => simp [runLinks]
  | cons link links ih =>
    have hn' := List.nodup_cons.1 hn
    have hs := similar_linkBody env i link d
    simp only [runLinks]
    rw [ih hn'.2, mem_linkBody]
    constructor
    · rintro ((h | ⟨h1, h2⟩) | ⟨j, l, hj, h1, h2⟩)
      · exact Or.inl h
      · exact Or.inr ⟨0, link, by simp, h1, h2⟩
      · refine Or.inr ⟨j + 1, l, by simpa using hj, ?_, (Marks.marks_congr hs _ _ _).1 h2⟩
        have hl : l ≠ link := by
          rintro rfl
          exact hn'.1 (List.mem_iff_getElem?.2 ⟨j, hj⟩)
        rw [getAttribute_linkBody, if_neg hl] at h1
        rw [← Nat.add_assoc, Nat.add_right_comm]
        exact h1
    · rintro (h | ⟨j, l, hj, h1, h2⟩)
      · exact Or.inl (Or.inl h)
      · cases j with
        | zero =>
          simp only [List.getElem?_cons_zero, Option.some.injEq] at hj
          subst hj
          exact Or.inl (Or.inr ⟨h1, h2⟩)
        | succ j =>
          simp only [List.getElem?_cons_succ] at hj
          refine Or.inr ⟨j, l, hj, ?_, (Marks.marks_congr hs _ _ _).2 h2⟩
          have hl : l ≠ link := by
            rintro rfl
            exact hn'.1 (List.mem_iff_getElem?.2 ⟨j, hj⟩)
          rw [getAttribute_linkBody, if_neg hl]
          rw [← Nat.add_assoc, Nat.add_right_comm] at h1
          exact h1

theorem forLinks_eq (env : Env) (links : List Ref) (n i : Nat) (d : Elem)
    (h : i + n = links.length) :
    forLinks env links n i d = .ok (runLinks env (links.drop i) i d) := by
  induction n generalizing i d with
  | zero =>
    have : links.drop i = [] := List.drop_eq_nil_of_le (by omega)
    simp [forLinks, this, runLinks]
  | succ n ih =>
    have hi : i < links.length := by omega
    have hd : links.drop i = links[i] :: links.drop (i + 1) := List.drop_eq_getElem_cons hi
    simp only [forLinks, List.getElem?_eq_getElem hi]
    rw [ih (i + 1) _ (by omega), hd]
    rfl

/-! ## The rest of the callback -/

theorem AgreeOn.on_refl {β : Type} (φ : Node → β) (d : Elem) : AgreeOn φ d d := fun _ => rfl

theorem AgreeOn.on_trans {β : Type} {φ : Node → β} {d x y : Elem} (h1 : AgreeOn φ d x)
    (h2 : AgreeOn φ x y) : AgreeOn φ d y := fun r => (h2 r).trans (h1 r)

theorem AgreeOn.on_updateNode {β : Type} (φ : Node → β) (g : Node → Node)
    (hg : ∀ n, φ (g n) = φ n) (d : Elem) (s : Ref) : AgreeOn φ d (updateNode d s g) :=
  fun r => map_nodeAt_updateNode φ g hg d s r

theorem AgreeOn.on_classList {d x : Elem} (h : AgreeOn Node.classList d x) (r : Ref) :
    classList x r = classList d r := by
  have h := h r
  simp only [MdbookToc.classList]
  cases hx : nodeAt x r <;> cases hd : nodeAt d r <;> simp [hx, hd] at h ⊢
  exact h

theorem AgreeOn.on_tagName {d x : Elem} (h : AgreeOn Node.tagName d x) (r : Ref) :
    tagName x r = tagName d r := by
  have h := h r
  simp only [MdbookToc.tagName]
  cases hx : nodeAt x r <;> cases hd : nodeAt d r <;> simp [hx, hd] at h ⊢
  exact h

theorem AgreeOn.on_scrollTop {d x : Elem} (h : AgreeOn Node.scrollTop d x) (r : Ref) :
    scrollTop x r = scrollTop d r := by
  have h := h r
  simp only [MdbookToc.scrollTop]
  cases hx : nodeAt x r <;> cases hd : nodeAt d r <;> simp [hx, hd] at h ⊢
  exact h

theorem AgreeOn.on_getAttribute {d x : Elem} (h : AgreeOn Node.attrs d x) (r : Ref)
    (name : String) : getAttribute x r name = getAttribute d r name :=
  getAttribute_eq_of_attrs (h r) name

theorem AgreeOn.on_connected {β : Type} {φ : Node → β} {d x : Elem} (h : AgreeOn φ d x)
    (r : Ref) : connected x r = connected d r := by
  have h := h r
  simp only [MdbookToc.connected]
  cases hx : nodeAt x r <;> cases hd : nodeAt d r <;> simp [hx, hd] at h ⊢

theorem agreeOn_addClickListener {β : Type} (φ : Node → β)
    (hφ : ∀ n l, φ { n with clickListeners := l } = φ n) (d : Elem) (s : Ref) (f : Listener) :
    AgreeOn φ d (addClickListener d s f) :=
  AgreeOn.on_updateNode φ _ (fun n => hφ n _) d s

theorem agreeOn_setScrollTop {β : Type} (φ : Node → β)
    (hφ : ∀ n v, φ { n with scrollTop := v } = φ n) (d : Elem) (s : Ref) (v : JSNumber) :
    AgreeOn φ d (setScrollTop d s v) :=
  AgreeOn.on_updateNode φ _ (fun n => hφ n _) d s

theorem agreeOn_foldl_addClickListener {β : Type} (φ : Node → β)
    (hφ : ∀ n l, φ { n with clickListeners := l } = φ n) (els : List Ref) (f : Listener)
    (d : Elem) : AgreeOn φ d (els.foldl (fun d el => addClickListener d el f) d) := by
  induction els generalizing d with
  | nil => exact AgreeOn.on_refl φ d
  | cons el els ih =>
    exact (agreeOn_addClickListener φ hφ d el f).on_trans (ih _)

theorem agreeOn_registerToggles {β : Type} (φ : Node → β)
    (hφ : ∀ n l, φ { n with clickListeners := l } = φ n) (d : Elem) :
    AgreeOn φ d (registerToggles d) :=
  agreeOn_foldl_addClickListener φ hφ _ _ d

theorem refs_foldl_addClickListener (els : List Ref) (f : Listener) (d : Elem) (here : Ref) :
    Elem.refs (els.foldl (fun d el => addClickListener d el f) d) here = Elem.refs d here := by
  induction els generalizing d with
  | nil => rfl
  | cons el els ih =>
    simp only [List.foldl_cons]
    rw [ih]
    exact refs_updateNode d el _ here

theorem inSidebar_congr {d x : Elem} (h : AgreeOn Node.attrs d x) (r : Ref) :
    inSidebar x r = inSidebar d r := by
  induction r with
  | nil => rfl
  | cons k up ih => simp only [inSidebar, ih, h.on_getAttribute]

theorem querySidebarActive_congr {d x : Elem} (hr : Elem.refs x [] = Elem.refs d [])
    (ha : AgreeOn Node.attrs d x) (hc : AgreeOn Node.classList d x) :
    querySidebarActive x = querySidebarActive d := by
  simp only [querySidebarActive, hr, classListContains, hc.on_classList, inSidebar_congr ha]

theorem querySidebarActive_registerToggles (d : Elem) :
    querySidebarActive (registerToggles d) = querySidebarActive d :=
  querySidebarActive_congr (refs_foldl_addClickListener _ _ d [])
    (agreeOn_registerToggles Node.attrs (fun _ _ => rfl) d)
    (agreeOn_registerToggles Node.classList (fun _ _ => rfl) d)

theorem agreeOn_afterScroll {β : Type} (φ : Node → β)
    (h1 : ∀ n l, φ { n with clickListeners := l } = φ n)
    (h2 : ∀ n v, φ { n with scrollTop := v } = φ n) (env : Env) (this : Ref) (pg : Page)
    (d : Elem) : AgreeOn φ d (afterScroll env this pg d).1 := by
  have ha := agreeOn_addClickListener φ h1 d this .saveScroll
  unfold afterScroll restoreScroll
  split
  · split
    · exact ha.on_trans (agreeOn_setScrollTop φ h2 _ _ _)
    · split <;> exact ha
  · split <;> exact ha

/-- The callback always returns, and its result is the composition of its parts. -/
theorem connectedCallback_eq (env : Env) (this : Ref) (pg : Page) :
    connectedCallback env this pg =
      .ok { document := finalDocument env this pg,
            sessionStorage := removeItem pg.sessionStorage "sidebar-scroll",
            scrolledIntoView := (afterScroll env this pg (afterLinks env this pg)).2 } := by
  simp only [connectedCallback]
  rw [forLinks_eq env _ _ 0 _ (by simp)]
  rfl

/-- The part of the final document the loop over the links decides. -/
theorem agreeOn_final {β : Type} (φ : Node → β)
    (h1 : ∀ n l, φ { n with clickListeners := l } = φ n)
    (h2 : ∀ n v, φ { n with scrollTop := v } = φ n) (env : Env) (this : Ref) (pg : Page)
    (d : Elem) : AgreeOn φ d (registerToggles (afterScroll env this pg d).1) :=
  (agreeOn_afterScroll φ h1 h2 env this pg d).on_trans (agreeOn_registerToggles φ h1 _)

/-! ## The table of contents in place -/

set_option maxRecDepth 100000

theorem toc_refs_ne_nil : ∀ s ∈ Elem.refsList tocMarkup [] 0, s ≠ [] := by decide

theorem tocLinks_nodup : tocLinks.Nodup := by decide

theorem tocLinks_length : tocLinks.length = 49 := by decide

theorem tocLinks_ne_nil : ∀ s ∈ tocLinks, s ≠ [] := by decide

theorem tocLinks_not_active : ∀ s ∈ tocLinks, "active" ∉ classList tocRoot s := by decide

theorem tocLinks_connected : ∀ s ∈ tocLinks, connected tocRoot s = true := by decide

theorem tocLinks_relative :
    ∀ s ∈ tocLinks, isRelativeHref (getAttribute tocRoot s "href") = true := by decide

theorem tocLinks_tail :
    ∀ s ∈ tocLinks, s ≠ [] ∧ s.tail ≠ [] ∧ tagName tocRoot s.tail = "LI" ∧
      "chapter-item" ∈ classList tocRoot s.tail := by
  decide

theorem tocLinks_parent {s : Ref} (hs : s ∈ tocLinks) :
    ∃ k p, s = k :: p ∧ p ≠ [] ∧ tagName tocRoot p = "LI" ∧
      "chapter-item" ∈ classList tocRoot p := by
  obtain ⟨h1, h2, h3, h4⟩ := tocLinks_tail s hs
  cases s with
  | nil => exact absurd rfl h1
  | cons k p => exact ⟨k, p, rfl, h2, h3, h4⟩

theorem get?_injected {pg : Page} {this : Ref} {n : Node}
    (h : nodeAt pg.document this = some n) :
    (injected pg this).get? this = some (.mk n tocMarkup) := by
  have h2 := get?_setInnerHTML_inside pg.document this [] tocMarkup
  simp only [List.nil_append] at h2
  simp only [nodeAt] at h
  unfold injected
  rw [h2]
  cases hd : pg.document.get? this with
  | none => simp [hd] at h
  | some e =>
    simp only [hd, Option.map_some', Option.some.injEq] at h
    simp [Elem.get?, Elem.getPath, h]

theorem nodeAt_injected_inside {pg : Page} {this : Ref}
    (hc : connected pg.document this = true) (s : Ref) (hs : s ≠ []) :
    nodeAt (injected pg this) (s ++ this) = nodeAt tocRoot s := by
  simp only [connected, nodeAt] at hc
  simp only [nodeAt, injected, get?_setInnerHTML_inside]
  cases hd : pg.document.get? this with
  | none => simp [hd] at hc
  | some e =>
    simp only [Option.some_bind]
    rw [get?_mk_congr e.node tocRoot.node tocMarkup s hs]
    rfl

theorem nodeAt_injected_outside (pg : Page) (this r : Ref)
    (hr : ¬ ∃ s, s ≠ [] ∧ r = s ++ this) :
    nodeAt (injected pg this) r = nodeAt pg.document r :=
  nodeAt_setInnerHTML_outside _ _ _ _ hr

theorem linksOf_eq {pg : Page} {this : Ref} (hc : connected pg.document this = true) :
    linksOf pg this = tocLinks.map (fun s => s ++ this) := by
  have hc' := hc
  simp only [connected] at hc'
  cases hn : nodeAt pg.document this with
  | none => simp [hn] at hc'
  | some n =>
    have hget := get?_injected hn
    simp only [linksOf, tocLinks, querySelectorAllA, descendants, hget, Elem.children]
    have hroot : tocRoot.get? [] = some tocRoot := rfl
    simp only [hroot]
    have hrel := Elem.refsList_append tocMarkup [] this 0
    simp only [List.nil_append] at hrel
    rw [hrel, List.filter_map]
    congr 1
    apply List.filter_congr
    intro s hs
    simp only [Function.comp, tagName]
    rw [nodeAt_injected_inside hc s (toc_refs_ne_nil s hs)]

theorem linksOf_nodup {pg : Page} {this : Ref} (hc : connected pg.document this = true) :
    (linksOf pg this).Nodup := by
  rw [linksOf_eq hc]
  exact tocLinks_nodup.map (fun a b h => List.append_cancel_right h)

theorem mem_linksOf {pg : Page} {this : Ref} (hc : connected pg.document this = true)
    {link : Ref} (h : link ∈ linksOf pg this) : ∃ s ∈ tocLinks, link = s ++ this := by
  rw [linksOf_eq hc] at h
  obtain ⟨s, hs, rfl⟩ := List.mem_map.1 h
  exact ⟨s, hs, rfl⟩

/-! ## Strings -/

theorem schemeRegexTest_iff (s : String) : schemeRegexTest s = true ↔ HasSchemeSlashes s := by
  have hcolon : isSchemeChar ':' = false := by decide
  simp only [schemeRegexTest, HasSchemeSlashes, Bool.or_eq_true, Bool.and_eq_true,
    List.isPrefixOf_iff_prefix, Bool.not_eq_true', List.isEmpty_eq_false]
  constructor
  · rintro (⟨t, ht⟩ | ⟨hne, t, ht⟩)
    · exact ⟨[], t, Or.inl (by simpa using ht.symm)⟩
    · refine ⟨s.data.takeWhile isSchemeChar, t, Or.inr ⟨hne, ?_, ?_⟩⟩
      · intro c hc
        exact List.mem_takeWhile_imp hc
      · have h := List.takeWhile_append_dropWhile isSchemeChar s.data
        rw [← ht] at h
        simpa using h.symm
  · rintro ⟨scheme, rest, h | ⟨hne, hall, h⟩⟩
    · exact Or.inl ⟨rest, by simp [h]⟩
    · right
      have h1 : s.data.takeWhile isSchemeChar = scheme := by
        rw [h, List.takeWhile_append_of_pos hall]
        simp [List.takeWhile, hcolon]
      have h2 : s.data.dropWhile isSchemeChar = ':' :: '/' :: '/' :: rest := by
        rw [h, List.dropWhile_append_of_pos hall]
        simp [List.dropWhile, hcolon]
      rw [h1, h2]
      exact ⟨hne, rest, by simp⟩

theorem isRelativeHref_iff (h : String) :
    isRelativeHref (some h) = true ↔
      (h ≠ "" ∧ startsWith h "#" = false ∧ ¬ HasSchemeSlashes h) := by
  rw [← schemeRegexTest_iff]
  simp [isRelativeHref, and_assoc]

theorem endsWith_iff (s p : String) : endsWith s p = true ↔ p.data <:+ s.data := by
  simp [endsWith]

theorem endsWith_index_of_slash (s : String) (h : endsWith s "/" = true) :
    endsWith (s ++ "index.html") "/index.html" = true := by
  rw [endsWith_iff] at h ⊢
  obtain ⟨t, ht⟩ := h
  refine ⟨t, ?_⟩
  simp only [String.data_append, ← ht, List.append_assoc]
  rfl

/-- The current page ends with `/index.html` when the document URL without its
fragment ends with a slash or with `/index.html`. -/
theorem endsWith_currentPage (href : String)
    (h : endsWith (splitHashFirst href) "/" = true ∨
      endsWith (splitHashFirst href) "/index.html" = true) :
    endsWith (currentPage href) "/index.html" = true := by
  unfold currentPage
  by_cases hs : endsWith (splitHashFirst href) "/" = true
  · simp only [hs, if_true]
    exact endsWith_index_of_slash _ hs
  · simp only [hs]
    rcases h with h | h
    · exact absurd h hs
    · simpa using h

theorem takeWhile_append_stop {α : Type} (p : α → Bool) (a : List α) (x : α) (b : List α)
    (hx : p x = false) (ha : ∀ y ∈ a, p y = true) :
    (a ++ x :: b).takeWhile p = a := by
  rw [List.takeWhile_append_of_pos ha]
  simp [List.takeWhile, hx]

theorem lastSegment_of_endsWith (s : String) (h : endsWith s "/index.html" = true) :
    lastSegment s = "index.html" := by
  rw [endsWith_iff] at h
  obtain ⟨t, ht⟩ := h
  have hr : s.data.reverse = "index.html".data.reverse ++ '/' :: t.reverse := by
    rw [← ht]
    simp
  unfold lastSegment
  rw [hr, takeWhile_append_stop _ _ _ _ (by decide) (by decide)]
  rfl

theorem string_append_left_cancel (p a b : String) (h : p ++ a = p ++ b) : a = b := by
  have := congrArg String.data h
  simp only [String.data_append, List.append_cancel_left_eq] at this
  exact String.ext this

/-! ## The final document -/

theorem classList_finalDocument (env : Env) (this : Ref) (pg : Page) (r : Ref) :
    classList (finalDocument env this pg) r = classList (afterLinks env this pg) r :=
  (agreeOn_final Node.classList (fun _ _ => rfl) (fun _ _ => rfl) env this pg _).on_classList r

theorem getAttribute_finalDocument (env : Env) (this : Ref) (pg : Page) (r : Ref)
    (name : String) :
    getAttribute (finalDocument env this pg) r name =
      getAttribute (afterLinks env this pg) r name :=
  (agreeOn_final Node.attrs (fun _ _ => rfl) (fun _ _ => rfl) env this pg _).on_getAttribute r name

theorem tagName_finalDocument (env : Env) (this : Ref) (pg : Page) (r : Ref) :
    tagName (finalDocument env this pg) r = tagName (injected pg this) r := by
  have h := (agreeOn_final Node.tagName (fun _ _ => rfl) (fun _ _ => rfl) env this pg
    (afterLinks env this pg)).on_tagName r
  exact h.trans ((similar_runLinks env _ 0 _).sim_tagName r)

theorem chapterItem_finalDocument (env : Env) (this : Ref) (pg : Page) (r : Ref) :
    "chapter-item" ∈ classList (finalDocument env this pg) r ↔
      "chapter-item" ∈ classList (injected pg this) r := by
  rw [classList_finalDocument]
  exact (similar_runLinks env _ 0 _).2 r

theorem classList_injected_inside {pg : Page} {this : Ref}
    (hc : connected pg.document this = true) (s : Ref) (hs : s ≠ []) :
    classList (injected pg this) (s ++ this) = classList tocRoot s := by
  simp only [classList, nodeAt_injected_inside hc s hs]

theorem getAttribute_injected_inside {pg : Page} {this : Ref}
    (hc : connected pg.document this = true) (s : Ref) (hs : s ≠ []) (name : String) :
    getAttribute (injected pg this) (s ++ this) name = getAttribute tocRoot s name := by
  simp only [getAttribute, nodeAt_injected_inside hc s hs]

theorem tagName_injected_inside {pg : Page} {this : Ref}
    (hc : connected pg.document this = true) (s : Ref) (hs : s ≠ []) :
    tagName (injected pg this) (s ++ this) = tagName tocRoot s := by
  simp only [tagName, nodeAt_injected_inside hc s hs]

theorem connected_injected_inside {pg : Page} {this : Ref}
    (hc : connected pg.document this = true) (s : Ref) (hs : s ≠ []) :
    connected (injected pg this) (s ++ this) = connected tocRoot s := by
  simp only [connected, nodeAt_injected_inside hc s hs]

theorem href_afterLinks {env : Env} {pg : Page} {this : Ref}
    (hc : connected pg.document this = true) {link : Ref} (hl : link ∈ linksOf pg this) :
    getAttribute (afterLinks env this pg) link "href" =
      newHref env (getAttribute (injected pg this) link "href") := by
  unfold afterLinks
  rw [getAttribute_runLinks env _ (linksOf_nodup hc), if_pos hl]

theorem hrefProperty_finalDocument {env : Env} {pg : Page} {this : Ref}
    (hc : connected pg.document this = true) {link : Ref} (hl : link ∈ linksOf pg this) :
    hrefProperty env (finalDocument env this pg) link =
      hrefOfAttr env (newHref env (getAttribute (injected pg this) link "href")) := by
  simp only [hrefProperty, hrefOfAttr, getAttribute_finalDocument, href_afterLinks hc hl]

theorem getElem?_inj_of_nodup {α : Type} {l : List α} (hn : l.Nodup) {i j : Nat} {a : α}
    (hi : l[i]? = some a) (hj : l[j]? = some a) : i = j := by
  obtain ⟨hi', hia⟩ := List.getElem?_eq_some.1 hi
  obtain ⟨hj', hja⟩ := List.getElem?_eq_some.1 hj
  exact (List.Nodup.getElem_inj_iff hn).1 (hia.trans hja.symm)

theorem active_afterLinks_iff {env : Env} {pg : Page} {this : Ref}
    (hc : connected pg.document this = true) {i : Nat} {link : Ref}
    (hl : (linksOf pg this)[i]? = some link) :
    "active" ∈ classList (afterLinks env this pg) link ↔
      IsCurrent env i (getAttribute (injected pg this) link "href") := by
  obtain ⟨s, hs, rfl⟩ := mem_linksOf hc (List.getElem?_mem hl)
  have hne := tocLinks_ne_nil s hs
  unfold afterLinks
  rw [mem_runLinks env _ (linksOf_nodup hc)]
  constructor
  · rintro (h | ⟨j, l, hj, h1, h2⟩)
    · rw [classList_injected_inside hc s hne] at h
      exact absurd h (tocLinks_not_active s hs)
    · rcases h2 with ⟨_, h2, _⟩ | ⟨h2, _⟩
      · subst h2
        have hij := getElem?_inj_of_nodup (linksOf_nodup hc) hl hj
        subst hij
        simpa using h1
      · exact absurd h2 (by decide)
  · intro h
    refine Or.inr ⟨i, _, hl, by simpa using h, Or.inl ⟨rfl, rfl, ?_⟩⟩
    rw [connected_injected_inside hc s hne]
    exact tocLinks_connected s hs

theorem expanded_afterLinks {env : Env} {pg : Page} {this : Ref}
    (hc : connected pg.document this = true) {i : Nat} {link : Ref}
    (hl : (linksOf pg this)[i]? = some link)
    (hcur : IsCurrent env i (getAttribute (injected pg this) link "href")) {parent r : Ref}
    (hp : parentElement link = some parent)
    (hr : r = parent ∨ ExpandTarget (injected pg this) parent r)
    (hci : "chapter-item" ∈ classList (injected pg this) r) :
    "expanded" ∈ classList (afterLinks env this pg) r := by
  unfold afterLinks
  rw [mem_runLinks env _ (linksOf_nodup hc)]
  exact Or.inr ⟨i, link, hl, by simpa using hcur, Or.inr ⟨rfl, hci, parent, hp, hr⟩⟩

/-! ## Session storage and scrolling -/

theorem getItem_removeItem_self (st : Storage) (k : String) :
    getItem (removeItem st k) k = none := by
  induction st with
  | nil => rfl
  | cons kv st ih =>
    obtain ⟨a, v⟩ := kv
    simp only [getItem, removeItem] at ih ⊢
    by_cases hk : a = k
    · subst hk
      simpa [List.filter] using ih
    · have h1 : (a != k) = true := by simpa using hk
      have h2 : (k == a) = false := by simpa using fun h => hk h.symm
      simp only [List.filter, h1, List.lookup, h2]
      exact ih

theorem getItem_removeItem_ne (st : Storage) (k other : String) (h : k ≠ other) :
    getItem (removeItem st other) k = getItem st k :=
  lookup_filter_ne st k other h

theorem lookup_map_replace (st : List (String × String)) (k other v : String)
    (h : k ≠ other) :
    (st.map (fun kv => if kv.1 == other then (other, v) else kv)).lookup k = st.lookup k := by
  induction st with
  | nil => rfl
  | cons kv st ih =>
    obtain ⟨a, w⟩ := kv
    rw [List.map_cons]
    by_cases ha : a = other
    · have h1 : (a == other) = true := by simpa using ha
      have h2 : (k == other) = false := by simpa using h
      have h3 : (k == a) = false := by rw [ha]; exact h2
      rw [if_pos h1]
      simp only [List.lookup, h2, h3]
      exact ih
    · have h1 : ¬ (a == other) = true := by simpa using ha
      rw [if_neg h1]
      simp only [List.lookup, ih]

theorem lookup_append_ne (st : List (String × String)) (k other v : String) (h : k ≠ other) :
    (st ++ [(other, v)]).lookup k = st.lookup k := by
  induction st with
  | nil =>
    have h2 : (k == other) = false := by simpa using h
    simp [List.lookup, h2]
  | cons kv st ih =>
    obtain ⟨a, w⟩ := kv
    rw [List.cons_append]
    simp only [List.lookup, ih]

theorem getItem_setItem_ne (st : Storage) (k other v : String) (h : k ≠ other) :
    getItem (setItem st other v) k = getItem st k := by
  simp only [getItem, setItem]
  split
  · exact lookup_map_replace st k other v h
  · exact lookup_append_ne st k other v h

theorem getItem_setItem_self (st : Storage) (k v : String) :
    getItem (setItem st k v) k = some v :=
  lookup_setAttr_self st k v

theorem scrollTop_setScrollTop (d : Elem) (s : Ref) (v : JSNumber) (h : connected d s = true) :
    scrollTop (setScrollTop d s v) s = v := by
  simp only [connected] at h
  simp only [scrollTop, setScrollTop, nodeAt_updateNode, if_true]
  cases hd : nodeAt d s <;> simp [hd] at h ⊢

theorem not_inside_self (this : Ref) : ¬ ∃ s, s ≠ [] ∧ this = s ++ this := by
  rintro ⟨s, hs, h⟩
  have := congrArg List.length h
  simp only [List.length_append] at this
  exact hs (List.length_eq_zero.1 (by omega))

theorem afterScroll_stored (env : Env) (this : Ref) (pg : Page) (d : Elem) (v : String)
    (h : getItem pg.sessionStorage "sidebar-scroll" = some v) (hv : v ≠ "") :
    afterScroll env this pg d =
      (setScrollTop (addClickListener d this .saveScroll) this (env.toNumber v),
        pg.scrolledIntoView) := by
  have hv' : (v != "") = true := by simpa using hv
  simp only [afterScroll, restoreScroll, h, hv', if_true]

theorem afterScroll_not_stored (env : Env) (this : Ref) (pg : Page) (d : Elem)
    (h : getItem pg.sessionStorage "sidebar-scroll" = none ∨
      getItem pg.sessionStorage "sidebar-scroll" = some "") :
    afterScroll env this pg d =
      (addClickListener d this .saveScroll,
        pg.scrolledIntoView ++
          (querySidebarActive (addClickListener d this .saveScroll)).toList) := by
  rcases h with h | h
  · simp only [afterScroll, restoreScroll, h]
    cases querySidebarActive (addClickListener d this .saveScroll) <;> simp
  · have hv' : (("" : String) != "") = false := by decide
    simp only [afterScroll, restoreScroll, h, hv', Bool.false_eq_true, if_false]
    cases querySidebarActive (addClickListener d this .saveScroll) <;> simp

theorem scrollTop_afterLinks (env : Env) (this : Ref) (pg : Page) :
    scrollTop (afterLinks env this pg) this = scrollTop pg.document this := by
  have h1 := scrollTop_eq_of_frame ((similar_runLinks env (linksOf pg this) 0
    (injected pg this)).1 this)
  have h2 : scrollTop (injected pg this) this = scrollTop pg.document this := by
    simp only [scrollTop, nodeAt_injected_outside pg this this (not_inside_self this)]
  exact h1.trans h2

theorem connected_afterLinks (env : Env) (this : Ref) (pg : Page) :
    connected (afterLinks env this pg) this = connected pg.document this := by
  have h1 := (similar_runLinks env (linksOf pg this) 0 (injected pg this)).sim_connected this
  have h2 : connected (injected pg this) this = connected pg.document this := by
    simp only [connected, nodeAt_injected_outside pg this this (not_inside_self this)]
  exact h1.trans h2


/-! ## At most one active link -/

theorem tocHrefs_length : tocHrefs.length = 49 := by decide

theorem tocHrefs_nodup : tocHrefs.Nodup := by decide

theorem tocHrefs_relative : ∀ h ∈ tocHrefs, isRelativeHref h = true := by decide

theorem tocHrefs_not_index :
    ∀ h ∈ tocHrefs, ∃ x, h = some x ∧ endsWith x "index.html" = false := by
  have h : ∀ h ∈ tocHrefs, (h.map (fun x => endsWith x "index.html")) = some false := by
    decide
  intro a ha
  have := h a ha
  cases a with
  | none => simp at this
  | some x => exact ⟨x, rfl, by simpa using this⟩

theorem lastSegment_suffix (s : String) : (lastSegment s).data <:+ s.data := by
  unfold lastSegment
  have h : s.data.reverse.takeWhile (fun c => c != '/') <+: s.data.reverse :=
    List.takeWhile_prefix _
  have h2 := List.reverse_suffix.2 h
  simpa using h2

theorem takeWhile_append_cons_false {α : Type} (p : α → Bool) (a : List α) (x : α)
    (b : List α) (hx : p x = false) : (a ++ x :: b).takeWhile p = a.takeWhile p := by
  induction a with
  | nil => simp [List.takeWhile, hx]
  | cons y a ih =>
    simp only [List.cons_append, List.takeWhile_cons, ih]

theorem lastSegment_append_of_slash (base h : String) (hb : endsWith base "/" = true) :
    lastSegment (base ++ h) = lastSegment h := by
  rw [endsWith_iff] at hb
  obtain ⟨t, ht⟩ := hb
  unfold lastSegment
  have hr : (base ++ h).data.reverse = h.data.reverse ++ '/' :: t.reverse := by
    rw [String.data_append, ← ht]
    simp
  rw [hr, takeWhile_append_cons_false _ _ _ _ (by decide)]

theorem tocLinks_href_injective {s1 s2 : Ref} (h1 : s1 ∈ tocLinks) (h2 : s2 ∈ tocLinks)
    (h : getAttribute tocRoot s1 "href" = getAttribute tocRoot s2 "href") : s1 = s2 :=
  List.inj_on_of_nodup_map tocHrefs_nodup h1 h2 h

theorem current_of_active {env : Env} {pg : Page} {this : Ref}
    (hc : connected pg.document this = true) {i : Nat} {s : Ref} (hs : s ∈ tocLinks)
    (hl : (linksOf pg this)[i]? = some (s ++ this))
    (hact : "active" ∈ classList (finalDocument env this pg) (s ++ this)) :
    ∃ h, getAttribute tocRoot s "href" = some h ∧ endsWith h "index.html" = false ∧
      (env.resolve (env.path_to_root ++ h) = currentPage env.href ∨
        (i = 0 ∧ env.path_to_root = "" ∧
          endsWith (currentPage env.href) "/index.html" = true)) := by
  rw [classList_finalDocument, active_afterLinks_iff hc hl,
    getAttribute_injected_inside hc s (tocLinks_ne_nil s hs)] at hact
  have hmem : getAttribute tocRoot s "href" ∈ tocHrefs := List.mem_map.2 ⟨s, hs, rfl⟩
  obtain ⟨x, hx, hidx⟩ := tocHrefs_not_index _ hmem
  have hrel := tocHrefs_relative _ hmem
  rw [hx] at hrel hact
  refine ⟨x, hx, hidx, ?_⟩
  simpa [IsCurrent, newHref, hrel, hrefOfAttr] using hact

theorem not_current_by_href_of_index {env : Env}
    (hseg : ∀ h, lastSegment (env.resolve h) = lastSegment h) {h : String}
    (hidx : endsWith h "index.html" = false) (hroot : env.path_to_root = "")
    (hcp : endsWith (currentPage env.href) "/index.html" = true)
    (heq : env.resolve (env.path_to_root ++ h) = currentPage env.href) : False := by
  have h1 := lastSegment_of_endsWith _ hcp
  rw [← heq, hseg, hroot] at h1
  have h2 : lastSegment h = "index.html" := by
    have : ("" : String) ++ h = h := by
      apply String.ext
      simp
    rw [this] at h1
    exact h1
  have h3 := lastSegment_suffix h
  rw [h2] at h3
  have h4 := (endsWith_iff h "index.html").2 h3
  rw [hidx] at h4
  exact Bool.noConfusion h4


/-! ## The shape of the document -/

/-- An update that keeps the children of the element it changes keeps the references
listed for every subtree. -/
theorem Elem.refs_getPath_updatePath (f : Elem → Elem)
    (hf : ∀ e, (f e).children = e.children) (d : Elem) (p q : List Nat) (here : Ref) :
    ((d.updatePath f p).getPath q).map (fun e => Elem.refs e here) =
      (d.getPath q).map (fun e => Elem.refs e here) := by
  induction p generalizing d q with
  | nil =>
    cases q with
    | nil =>
      simp only [Elem.getPath, Option.map_some', Option.some.injEq]
      exact Elem.refs_updatePath f hf d [] here
    | cons j q =>
      simp only [Elem.updatePath]
      rw [Elem.getPath_children_congr (f d) d (hf d)]
  | cons i p ih =>
    cases d with
    | mk n cs =>
      cases q with
      | nil =>
        simp only [Elem.getPath, Option.map_some', Option.some.injEq]
        exact Elem.refs_updatePath f hf (.mk n cs) (i :: p) here
      | cons j q =>
        simp only [Elem.getPath, Elem.updatePath, Elem.children, getElem?_modifyAt]
        by_cases hji : j = i
        · subst hji
          simp only [if_true]
          cases cs[j]? with
          | none => simp
          | some c => simpa using ih c q
        · simp [hji]

/-- Replacing the element at `p` by one that lists the same references keeps the
references listed for the tree. -/
theorem Elem.refs_updatePath_of (f : Elem → Elem) (d : Elem) (p : List Nat)
    (hf : ∀ e, d.getPath p = some e → ∀ h, Elem.refs (f e) h = Elem.refs e h) (here : Ref) :
    Elem.refs (d.updatePath f p) here = Elem.refs d here := by
  induction p generalizing d here with
  | nil =>
    simp only [Elem.updatePath]
    exact hf d rfl here
  | cons i p ih =>
    cases d with
    | mk n cs =>
      simp only [Elem.updatePath, Elem.refs]
      congr 1
      have hgen : ∀ (l : List Elem) (k m : Nat),
          (∀ c, l[k]? = some c → ∀ e, c.getPath p = some e →
            ∀ h, Elem.refs (f e) h = Elem.refs e h) →
          Elem.refsList (modifyAt (fun c => Elem.updatePath f c p) k l) here m =
            Elem.refsList l here m := by
        intro l
        induction l with
        | nil => intro k m _; cases k <;> simp [modifyAt]
        | cons c l ihl =>
          intro k m hc
          cases k with
          | zero =>
            simp only [modifyAt, Elem.refsList]
            rw [ih c (fun e he => hc c (by simp) e he)]
          | succ k =>
            simp only [modifyAt, Elem.refsList]
            rw [ihl k (m + 1) (fun c' hc' => hc c' (by simpa using hc'))]
      apply hgen
      intro c hc e he
      apply hf
      simp only [Elem.getPath, Elem.children, hc]
      exact he

theorem updates_trans {d x y : Elem} (h1 : Updates d x) (h2 : Updates x y) : Updates d y := by
  induction h2 with
  | same => exact h1
  | step s g _ ih => exact Updates.step s g ih

theorem updates_updateNode (d : Elem) (s : Ref) (g : Node → Node) :
    Updates d (updateNode d s g) :=
  Updates.step s g (Updates.same d)

/-- Changing own data keeps the references listed for every subtree. -/
theorem refs_get?_of_updates {d x : Elem} (h : Updates d x) (q here : Ref) :
    (x.get? q).map (fun e => Elem.refs e here) = (d.get? q).map (fun e => Elem.refs e here) := by
  induction h with
  | same => rfl
  | step s g _ ih =>
    rw [← ih]
    exact Elem.refs_getPath_updatePath (fun e => Elem.mk (g e.node) e.children)
      (fun _ => rfl) _ s.reverse q.reverse here

theorem refs_of_updates {d x : Elem} (h : Updates d x) (here : Ref) :
    Elem.refs x here = Elem.refs d here := by
  have := refs_get?_of_updates h [] here
  simpa [Elem.get?, Elem.getPath] using this

theorem updates_expandPrevious (a : Ref) (d : Elem) : Updates d (expandPrevious a d) := by
  unfold expandPrevious
  split
  · split
    · split
      · exact updates_updateNode _ _ _
      · exact Updates.same d
    · exact Updates.same d
  · exact Updates.same d

theorem updates_ancestorWalk (a : Ref) (d : Elem) : Updates d (ancestorWalk a d) := by
  induction a generalizing d with
  | nil => exact updates_expandPrevious [] d
  | cons k up ih => exact updates_trans (updates_expandPrevious (k :: up) d) (ih _)

theorem updates_markActive (link : Ref) (d : Elem) : Updates d (markActive link d) := by
  unfold markActive
  have h1 : Updates d (classListAdd d link "active") := updates_updateNode _ _ _
  cases link with
  | nil => exact h1
  | cons k parent =>
    simp only [parentElement]
    refine updates_trans ?_ (updates_ancestorWalk _ _)
    split
    · exact updates_trans h1 (updates_updateNode _ _ _)
    · exact h1

theorem updates_rewriteHref (env : Env) (link : Ref) (d : Elem) :
    Updates d (rewriteHref env link d) := by
  unfold rewriteHref
  split
  · split
    · exact updates_updateNode _ _ _
    · exact Updates.same d
  · exact Updates.same d

theorem updates_linkBody (env : Env) (i : Nat) (link : Ref) (d : Elem) :
    Updates d (linkBody env i link d) := by
  by_cases h : IsCurrent env i (getAttribute d link "href")
  · rw [linkBody_of_current env i link d h]
    exact updates_trans (updates_rewriteHref env link d) (updates_markActive _ _)
  · rw [linkBody_of_not_current env i link d h]
    exact updates_rewriteHref env link d

theorem updates_runLinks (env : Env) (links : List Ref) (i : Nat) (d : Elem) :
    Updates d (runLinks env links i d) := by
  induction links generalizing i d with
  | nil => exact Updates.same d
  | cons link links ih => exact updates_trans (updates_linkBody env i link d) (ih _ _)

theorem updates_registerToggles (d : Elem) : Updates d (registerToggles d) := by
  unfold registerToggles
  generalize querySidebarToggles d = els
  induction els generalizing d with
  | nil => exact Updates.same d
  | cons el els ih => exact updates_trans (updates_updateNode _ _ _) (ih _)

theorem updates_afterScroll (env : Env) (this : Ref) (pg : Page) (d : Elem) :
    Updates d (afterScroll env this pg d).1 := by
  have ha : Updates d (addClickListener d this .saveScroll) := updates_updateNode _ _ _
  unfold afterScroll restoreScroll
  split
  · split
    · show Updates d (setScrollTop (addClickListener d this .saveScroll) this _)
      exact updates_trans ha (updates_updateNode (addClickListener d this .saveScroll) _ _)
    · split <;> exact ha
  · split <;> exact ha

theorem updates_finalDocument (env : Env) (this : Ref) (pg : Page) :
    Updates (injected pg this) (finalDocument env this pg) :=
  updates_trans (updates_runLinks env _ 0 _)
    (updates_trans (updates_afterScroll env this pg _) (updates_registerToggles _))

/-! ## Running the callback a second time -/

theorem connectedCallback_firstRun (env : Env) (this : Ref) (pg : Page) :
    connectedCallback env this pg = .ok (firstRun env this pg) :=
  connectedCallback_eq env this pg

theorem connected_finalDocument (env : Env) (this : Ref) (pg : Page) (r : Ref) :
    connected (finalDocument env this pg) r = connected (injected pg this) r := by
  have h := (agreeOn_final Node.tagName (fun _ _ => rfl) (fun _ _ => rfl) env this pg
    (afterLinks env this pg)).on_connected r
  exact h.trans ((similar_runLinks env _ 0 _).sim_connected r)

theorem connected_firstRun {env : Env} {this : Ref} {pg : Page}
    (hc : connected pg.document this = true) :
    connected (firstRun env this pg).document this = true := by
  show connected (finalDocument env this pg) this = true
  rw [connected_finalDocument]
  simp only [connected, nodeAt_injected_outside pg this this (not_inside_self this)]
  exact hc

theorem linksOf_firstRun {env : Env} {this : Ref} {pg : Page}
    (hc : connected pg.document this = true) :
    linksOf (firstRun env this pg) this = linksOf pg this := by
  rw [linksOf_eq hc, linksOf_eq (connected_firstRun hc)]

theorem nodeAt_injected_firstRun_inside {env : Env} {this : Ref} {pg : Page}
    (hc : connected pg.document this = true) (s : Ref) (hs : s ≠ []) :
    nodeAt (injected (firstRun env this pg) this) (s ++ this) =
      nodeAt (injected pg this) (s ++ this) := by
  rw [nodeAt_injected_inside hc s hs, nodeAt_injected_inside (connected_firstRun hc) s hs]

theorem nodeAt_injected_firstRun_outside (env : Env) (this : Ref) (pg : Page) (r : Ref)
    (hr : ¬ ∃ s, s ≠ [] ∧ r = s ++ this) :
    nodeAt (injected (firstRun env this pg) this) r = nodeAt (finalDocument env this pg) r :=
  nodeAt_injected_outside _ this r hr

theorem tagName_injected_firstRun {env : Env} {this : Ref} {pg : Page}
    (hc : connected pg.document this = true) (r : Ref) :
    tagName (injected (firstRun env this pg) this) r = tagName (injected pg this) r := by
  by_cases hr : ∃ s, s ≠ [] ∧ r = s ++ this
  · obtain ⟨s, hs, rfl⟩ := hr
    simp only [tagName, nodeAt_injected_firstRun_inside hc s hs]
  · have h : tagName (injected (firstRun env this pg) this) r =
        tagName (finalDocument env this pg) r := by
      simp only [tagName, nodeAt_injected_firstRun_outside env this pg r hr]
    rw [h, tagName_finalDocument]

theorem connected_injected_firstRun {env : Env} {this : Ref} {pg : Page}
    (hc : connected pg.document this = true) (r : Ref) :
    connected (injected (firstRun env this pg) this) r = connected (injected pg this) r := by
  by_cases hr : ∃ s, s ≠ [] ∧ r = s ++ this
  · obtain ⟨s, hs, rfl⟩ := hr
    simp only [connected, nodeAt_injected_firstRun_inside hc s hs]
  · have h : connected (injected (firstRun env this pg) this) r =
        connected (finalDocument env this pg) r := by
      simp only [connected, nodeAt_injected_firstRun_outside env this pg r hr]
    rw [h, connected_finalDocument]

theorem chapterItem_injected_firstRun {env : Env} {this : Ref} {pg : Page}
    (hc : connected pg.document this = true) (r : Ref) :
    "chapter-item" ∈ classList (injected (firstRun env this pg) this) r ↔
      "chapter-item" ∈ classList (injected pg this) r := by
  by_cases hr : ∃ s, s ≠ [] ∧ r = s ++ this
  · obtain ⟨s, hs, rfl⟩ := hr
    simp only [classList, nodeAt_injected_firstRun_inside hc s hs]
  · have h : classList (injected (firstRun env this pg) this) r =
        classList (finalDocument env this pg) r := by
      simp only [classList, nodeAt_injected_firstRun_outside env this pg r hr]
    rw [h, chapterItem_finalDocument]

theorem marks_congr_of {d x : Elem} (ht : ∀ r, tagName x r = tagName d r)
    (hcn : ∀ r, connected x r = connected d r)
    (hci : ∀ r, "chapter-item" ∈ classList x r ↔ "chapter-item" ∈ classList d r)
    (link r : Ref) (c : String) : Marks x link r c ↔ Marks d link r c := by
  simp only [Marks, ExpandTarget, ht, hcn, hci r]

theorem href_injected_firstRun_link {env : Env} {this : Ref} {pg : Page}
    (hc : connected pg.document this = true) {link : Ref} (hl : link ∈ linksOf pg this) :
    getAttribute (injected (firstRun env this pg) this) link "href" =
      getAttribute (injected pg this) link "href" := by
  obtain ⟨s, hs, rfl⟩ := mem_linksOf hc hl
  simp only [getAttribute, nodeAt_injected_firstRun_inside hc s (tocLinks_ne_nil s hs)]

/-- What the loop over the links adds to the class lists, on either run. -/
theorem marked_firstRun_iff {env : Env} {this : Ref} {pg : Page}
    (hc : connected pg.document this = true) (r : Ref) (c : String) :
    (∃ j link, (linksOf (firstRun env this pg) this)[j]? = some link ∧
      IsCurrent env (0 + j)
        (getAttribute (injected (firstRun env this pg) this) link "href") ∧
      Marks (injected (firstRun env this pg) this) link r c) ↔
    (∃ j link, (linksOf pg this)[j]? = some link ∧
      IsCurrent env (0 + j) (getAttribute (injected pg this) link "href") ∧
      Marks (injected pg this) link r c) := by
  rw [linksOf_firstRun hc]
  have hm := fun link => marks_congr_of (fun r => tagName_injected_firstRun hc r)
    (fun r => connected_injected_firstRun hc r)
    (fun r => @chapterItem_injected_firstRun env this pg hc r) link r c
  constructor
  · rintro ⟨j, link, hj, h1, h2⟩
    refine ⟨j, link, hj, ?_, (hm link).1 h2⟩
    rw [← href_injected_firstRun_link hc (List.getElem?_mem hj)]
    exact h1
  · rintro ⟨j, link, hj, h1, h2⟩
    refine ⟨j, link, hj, ?_, (hm link).2 h2⟩
    rw [href_injected_firstRun_link hc (List.getElem?_mem hj)]
    exact h1

/-- A second run leaves every element with the classes the first run left. -/
theorem mem_classList_second_run {env : Env} {this : Ref} {pg : Page}
    (hc : connected pg.document this = true) (r : Ref) (c : String) :
    c ∈ classList (finalDocument env this (firstRun env this pg)) r ↔
      c ∈ classList (finalDocument env this pg) r := by
  rw [classList_finalDocument, classList_finalDocument]
  unfold afterLinks
  rw [mem_runLinks env _ (linksOf_nodup (connected_firstRun hc)),
    mem_runLinks env _ (linksOf_nodup hc), marked_firstRun_iff hc]
  by_cases hr : ∃ s, s ≠ [] ∧ r = s ++ this
  · obtain ⟨s, hs, rfl⟩ := hr
    simp only [classList, nodeAt_injected_firstRun_inside hc s hs]
  · have h : classList (injected (firstRun env this pg) this) r =
        classList (finalDocument env this pg) r := by
      simp only [classList, nodeAt_injected_firstRun_outside env this pg r hr]
    rw [h, classList_finalDocument]
    unfold afterLinks
    rw [mem_runLinks env _ (linksOf_nodup hc)]
    constructor
    · rintro ((h | h) | h)
      · exact Or.inl h
      · exact Or.inr h
      · exact Or.inr h
    · rintro (h | h)
      · exact Or.inl (Or.inl h)
      · exact Or.inr h

/-- A second run leaves every element with the `href` attribute the first run left. -/
theorem href_second_run {env : Env} {this : Ref} {pg : Page}
    (hc : connected pg.document this = true) (r : Ref) :
    getAttribute (finalDocument env this (firstRun env this pg)) r "href" =
      getAttribute (finalDocument env this pg) r "href" := by
  rw [getAttribute_finalDocument, getAttribute_finalDocument]
  unfold afterLinks
  rw [getAttribute_runLinks env _ (linksOf_nodup (connected_firstRun hc)),
    getAttribute_runLinks env _ (linksOf_nodup hc), linksOf_firstRun hc]
  by_cases hl : r ∈ linksOf pg this
  · simp only [hl, if_true, href_injected_firstRun_link hc hl]
  · simp only [hl, if_false]
    by_cases hr : ∃ s, s ≠ [] ∧ r = s ++ this
    · obtain ⟨s, hs, rfl⟩ := hr
      simp only [getAttribute, nodeAt_injected_firstRun_inside hc s hs]
    · have h : getAttribute (injected (firstRun env this pg) this) r "href" =
          getAttribute (finalDocument env this pg) r "href" := by
        simp only [getAttribute, nodeAt_injected_firstRun_outside env this pg r hr]
      rw [h, getAttribute_finalDocument]
      unfold afterLinks
      rw [getAttribute_runLinks env _ (linksOf_nodup hc)]
      simp only [hl, if_false]

theorem removeItem_removeItem (st : Storage) (k : String) :
    removeItem (removeItem st k) k = removeItem st k := by
  simp [removeItem, List.filter_filter]

theorem scrollTop_finalDocument_not_stored (env : Env) (this : Ref) (pg : Page)
    (h : getItem pg.sessionStorage "sidebar-scroll" = none ∨
      getItem pg.sessionStorage "sidebar-scroll" = some "") :
    scrollTop (finalDocument env this pg) this = scrollTop pg.document this := by
  unfold finalDocument
  rw [(agreeOn_registerToggles Node.scrollTop (fun _ _ => rfl) _).on_scrollTop,
    afterScroll_not_stored env this pg _ h,
    (agreeOn_addClickListener Node.scrollTop (fun _ _ => rfl) _ _ _).on_scrollTop,
    scrollTop_afterLinks]

theorem scrollTop_finalDocument_stored (env : Env) (this : Ref) (pg : Page)
    (hc : connected pg.document this = true) (v : String)
    (h : getItem pg.sessionStorage "sidebar-scroll" = some v) (hv : v ≠ "") :
    scrollTop (finalDocument env this pg) this = env.toNumber v := by
  unfold finalDocument
  rw [(agreeOn_registerToggles Node.scrollTop (fun _ _ => rfl) _).on_scrollTop,
    afterScroll_stored env this pg _ v h hv]
  apply scrollTop_setScrollTop
  rw [(agreeOn_addClickListener Node.tagName (fun _ _ => rfl) _ _ _).on_connected,
    connected_afterLinks]
  exact hc

theorem log_not_stored (env : Env) (this : Ref) (pg : Page)
    (h : getItem pg.sessionStorage "sidebar-scroll" = none ∨
      getItem pg.sessionStorage "sidebar-scroll" = some "") :
    (afterScroll env this pg (afterLinks env this pg)).2 =
      pg.scrolledIntoView ++ (querySidebarActive (finalDocument env this pg)).toList := by
  unfold finalDocument
  rw [querySidebarActive_registerToggles, afterScroll_not_stored env this pg _ h]

theorem log_stored (env : Env) (this : Ref) (pg : Page) (v : String)
    (h : getItem pg.sessionStorage "sidebar-scroll" = some v) (hv : v ≠ "") :
    (afterScroll env this pg (afterLinks env this pg)).2 = pg.scrolledIntoView := by
  rw [afterScroll_stored env this pg _ v h hv]

theorem getAttribute_finalDocument_ne (env : Env) (this : Ref) (pg : Page) (r : Ref)
    (name : String) (hn : name ≠ "href") :
    getAttribute (finalDocument env this pg) r name =
      getAttribute (injected pg this) r name := by
  rw [getAttribute_finalDocument]
  exact getAttribute_eq_of_frame ((similar_runLinks env _ 0 _).1 r) name hn

theorem id_second_run {env : Env} {this : Ref} {pg : Page}
    (hc : connected pg.document this = true) (r : Ref) :
    getAttribute (finalDocument env this (firstRun env this pg)) r "id" =
      getAttribute (finalDocument env this pg) r "id" := by
  rw [getAttribute_finalDocument_ne _ _ _ _ _ (by decide)]
  by_cases hr : ∃ s, s ≠ [] ∧ r = s ++ this
  · obtain ⟨s, hs, rfl⟩ := hr
    rw [getAttribute_finalDocument_ne _ _ _ _ _ (by decide)]
    simp only [getAttribute, nodeAt_injected_firstRun_inside hc s hs]
  · simp only [getAttribute, nodeAt_injected_firstRun_outside env this pg r hr]

theorem refs_second_run {env : Env} {this : Ref} {pg : Page}
    (hc : connected pg.document this = true) :
    Elem.refs (finalDocument env this (firstRun env this pg)) [] =
      Elem.refs (finalDocument env this pg) [] := by
  rw [refs_of_updates (updates_finalDocument env this (firstRun env this pg))]
  show Elem.refs (setInnerHTML (finalDocument env this pg) this tocMarkup) [] = _
  apply Elem.refs_updatePath_of
  intro e he h
  have hc' := hc
  simp only [connected] at hc'
  cases hn : nodeAt pg.document this with
  | none => simp [hn] at hc'
  | some n =>
    have h1 := refs_get?_of_updates (updates_finalDocument env this pg) this h
    have he' : (finalDocument env this pg).get? this = some e := he
    rw [he', get?_injected hn] at h1
    simp only [Option.map_some', Option.some.injEq] at h1
    rw [h1]
    simp [Elem.refs]

theorem inSidebar_congr_id {d x : Elem}
    (h : ∀ r, getAttribute x r "id" = getAttribute d r "id") (r : Ref) :
    inSidebar x r = inSidebar d r := by
  induction r with
  | nil => rfl
  | cons k up ih => simp only [inSidebar, ih, h]

theorem querySidebarActive_congr_of {d x : Elem} (hr : Elem.refs x [] = Elem.refs d [])
    (hid : ∀ r, getAttribute x r "id" = getAttribute d r "id")
    (hact : ∀ r, "active" ∈ classList x r ↔ "active" ∈ classList d r) :
    querySidebarActive x = querySidebarActive d := by
  have hb : ∀ r, classListContains x r "active" = classListContains d r "active" := by
    intro r
    rw [Bool.eq_iff_iff, classListContains_iff, classListContains_iff]
    exact hact r
  simp only [querySidebarActive, hr, hb, inSidebar_congr_id hid]

/-- A second run finds the same element under `#sidebar .active` as the first. -/
theorem querySidebarActive_second_run {env : Env} {this : Ref} {pg : Page}
    (hc : connected pg.document this = true) :
    querySidebarActive (finalDocument env this (firstRun env this pg)) =
      querySidebarActive (finalDocument env this pg) :=
  querySidebarActive_congr_of (refs_second_run hc) (fun r => id_second_run hc r)
    (fun r => mem_classList_second_run hc r "active")

theorem AgreeOn.on_clickListeners {d x : Elem} (h : AgreeOn Node.clickListeners d x)
    (r : Ref) : clickListeners x r = clickListeners d r := by
  have h := h r
  simp only [clickListeners]
  cases hx : nodeAt x r <;> cases hd : nodeAt d r <;> simp [hx, hd] at h ⊢
  exact h

theorem clickListeners_addClickListener (d : Elem) (s r : Ref) (f : Listener) :
    clickListeners (addClickListener d s f) r =
      if r = s ∧ connected d s = true then clickListeners d r ++ [f] else clickListeners d r := by
  simp only [clickListeners, addClickListener, nodeAt_updateNode, connected]
  by_cases hrs : r = s
  · subst hrs
    cases h : nodeAt d r <;> simp
  · simp [hrs]

theorem count_saveScroll_foldl (els : List Ref) (d : Elem) (r : Ref) :
    (clickListeners (els.foldl (fun d el => addClickListener d el .toggleSection) d) r).count
        Listener.saveScroll = (clickListeners d r).count Listener.saveScroll := by
  induction els generalizing d with
  | nil => rfl
  | cons el els ih =>
    simp only [List.foldl_cons]
    rw [ih, clickListeners_addClickListener]
    split
    · simp [List.count_append]
    · rfl

theorem count_saveScroll_registerToggles (d : Elem) (r : Ref) :
    (clickListeners (registerToggles d) r).count Listener.saveScroll =
      (clickListeners d r).count Listener.saveScroll :=
  count_saveScroll_foldl _ d r

theorem clickListeners_afterLinks (env : Env) (this : Ref) (pg : Page) :
    clickListeners (afterLinks env this pg) this = clickListeners pg.document this := by
  have h1 := clickListeners_eq_of_frame ((similar_runLinks env (linksOf pg this) 0
    (injected pg this)).1 this)
  have h2 : clickListeners (injected pg this) this = clickListeners pg.document this := by
    simp only [clickListeners, nodeAt_injected_outside pg this this (not_inside_self this)]
  exact h1.trans h2

/-- Every run registers one more `saveScroll` listener on the scroll box. -/
theorem count_saveScroll_finalDocument (env : Env) (this : Ref) (pg : Page)
    (hc : connected pg.document this = true) :
    (clickListeners (finalDocument env this pg) this).count Listener.saveScroll =
      (clickListeners pg.document this).count Listener.saveScroll + 1 := by
  have hca : connected (afterLinks env this pg) this = true := by
    rw [connected_afterLinks]
    exact hc
  have hadd : clickListeners (addClickListener (afterLinks env this pg) this .saveScroll) this
      = clickListeners pg.document this ++ [Listener.saveScroll] := by
    rw [clickListeners_addClickListener, if_pos ⟨rfl, hca⟩, clickListeners_afterLinks]
  unfold finalDocument
  rw [count_saveScroll_registerToggles]
  have hcases : (afterScroll env this pg (afterLinks env this pg)).1 =
      addClickListener (afterLinks env this pg) this .saveScroll ∨
      ∃ v, (afterScroll env this pg (afterLinks env this pg)).1 =
        setScrollTop (addClickListener (afterLinks env this pg) this .saveScroll) this v := by
    unfold afterScroll restoreScroll
    split
    · split
      · exact Or.inr ⟨_, rfl⟩
      · split <;> exact Or.inl rfl
    · split <;> exact Or.inl rfl
  rcases hcases with h | ⟨v, h⟩
  · rw [h, hadd]
    simp [List.count_append]
  · rw [h]
    have hl := (agreeOn_setScrollTop Node.clickListeners (fun _ _ => rfl)
      (addClickListener (afterLinks env this pg) this .saveScroll) this v).on_clickListeners
      this
    rw [hl, hadd]
    simp [List.count_append]

/-! ## Scroll offsets as strings -/

theorem digitChar_toNat : ∀ m, m < 10 →
    (48 ≤ (Nat.digitChar m).toNat ∧ (Nat.digitChar m).toNat ≤ 57) ∧
      (Nat.digitChar m).toNat - 48 = m := by
  decide

theorem digitsValue_append (xs ys : List Char) (acc : Nat) :
    digitsValue (xs ++ ys) acc = (digitsValue xs acc).bind (digitsValue ys) := by
  induction xs generalizing acc with
  | nil => rfl
  | cons c xs ih =>
    simp only [List.cons_append, digitsValue]
    split
    · exact ih _
    · rfl

theorem toDigitsCore_append (fuel n : Nat) (ds : List Char) :
    Nat.toDigitsCore 10 fuel n ds = Nat.toDigitsCore 10 fuel n [] ++ ds := by
  induction fuel generalizing n ds with
  | zero => rfl
  | succ fuel ih =>
    simp only [Nat.toDigitsCore]
    split
    · rfl
    · rw [ih (n / 10) (Nat.digitChar (n % 10) :: ds), ih (n / 10) [Nat.digitChar (n % 10)]]
      simp

theorem digitsValue_digit (m acc : Nat) (h : m < 10) :
    digitsValue [Nat.digitChar m] acc = some (10 * acc + m) := by
  obtain ⟨⟨h1, h2⟩, h3⟩ := digitChar_toNat m h
  have hb : (decide (48 ≤ (Nat.digitChar m).toNat) && decide ((Nat.digitChar m).toNat ≤ 57))
      = true := by simp [h1, h2]
  simp only [digitsValue, hb, if_true, h3]

theorem digitsValue_toDigitsCore (fuel n : Nat) (h : n < fuel) :
    digitsValue (Nat.toDigitsCore 10 fuel n []) 0 = some n := by
  induction fuel generalizing n with
  | zero => omega
  | succ fuel ih =>
    simp only [Nat.toDigitsCore]
    split
    · next h0 =>
      rw [digitsValue_digit _ _ (Nat.mod_lt _ (by decide))]
      congr 1
      have := Nat.div_add_mod n 10
      omega
    · next h0 =>
      have hlt : n / 10 < fuel := by omega
      rw [toDigitsCore_append, digitsValue_append, ih _ hlt]
      simp only [Option.some_bind]
      rw [digitsValue_digit _ _ (Nat.mod_lt _ (by decide))]
      congr 1
      exact Nat.div_add_mod n 10

theorem toDigitsCore_ne_nil (fuel n : Nat) :
    Nat.toDigitsCore 10 (fuel + 1) n [] ≠ [] := by
  simp only [Nat.toDigitsCore]
  split
  · simp
  · rw [toDigitsCore_append]
    simp

theorem ofNat_data (n : Nat) :
    (numberToString (JSNumber.ofNat n)).data = Nat.toDigitsCore 10 (n + 1) n [] := rfl

/-- The sample conversion reads a whole scroll offset stored as a string back as the
same offset. -/
theorem sampleToNumber_numberToString (n : Nat) :
    sampleToNumber (numberToString (JSNumber.ofNat n)) = JSNumber.ofNat n := by
  unfold sampleToNumber
  rw [ofNat_data]
  have hne := toDigitsCore_ne_nil n n
  have hemp : (Nat.toDigitsCore 10 (n + 1) n []).isEmpty = false := by
    cases h : Nat.toDigitsCore 10 (n + 1) n [] with
    | nil => exact absurd h hne
    | cons _ _ => rfl
  rw [hemp, digitsValue_toDigitsCore _ _ (Nat.lt_succ_self n)]
  rfl

theorem numberToString_ofNat_ne_empty (n : Nat) : numberToString (JSNumber.ofNat n) ≠ "" := by
  intro h
  have := congrArg String.data h
  rw [ofNat_data] at this
  exact toDigitsCore_ne_nil n n this

/-- A click whose target is an `a` element stores the scroll offset of the sidebar, and
the callback of the next page sets `scrollTop` to it, provided the offset prints as a
non-empty string that converts back to it (as every finite number does). -/
theorem link_click_restores_scroll (env : Env) (this : Ref) (pg next : Page) (e : Event)
    (htag : tagName pg.document e.target = "A")
    (hst : next.sessionStorage = (clickListener e pg).sessionStorage)
    (hc : connected next.document this = true)
    (hne : numberToString (scrollTop pg.document e.currentTarget) ≠ "")
    (hround : env.toNumber (numberToString (scrollTop pg.document e.currentTarget)) =
      scrollTop pg.document e.currentTarget) :
    getItem (clickListener e pg).sessionStorage "sidebar-scroll" =
        some (numberToString (scrollTop pg.document e.currentTarget)) ∧
      scrollTop (finalDocument env this next) this = scrollTop pg.document e.currentTarget := by
  have h1 : getItem (clickListener e pg).sessionStorage "sidebar-scroll" =
      some (numberToString (scrollTop pg.document e.currentTarget)) := by
    simp only [clickListener, htag, if_true]
    exact getItem_setItem_self _ _ _
  refine ⟨h1, ?_⟩
  rw [scrollTop_finalDocument_stored env this next hc _ (by rw [hst]; exact h1) hne, hround]

/-- With the sample conversion, a click on an `a` element preserves every whole scroll
offset, 0 included. -/
theorem link_click_restores_whole_offset (env : Env) (this : Ref) (pg next : Page)
    (e : Event) (n : Nat) (htag : tagName pg.document e.target = "A")
    (hst : next.sessionStorage = (clickListener e pg).sessionStorage)
    (hc : connected next.document this = true) (hconv : env.toNumber = sampleToNumber)
    (hn : scrollTop pg.document e.currentTarget = JSNumber.ofNat n) :
    scrollTop (finalDocument env this next) this = JSNumber.ofNat n := by
  have h := link_click_restores_scroll env this pg next e htag hst hc
    (by rw [hn]; exact numberToString_ofNat_ne_empty n)
    (by rw [hn, hconv]; exact sampleToNumber_numberToString n)
  rw [← hn]
  exact h.2

/-! ## Two runs on the stored page -/

theorem storedPage_runs :
    scrolledIntoViewAfter (connectedCallback sampleEnv sampleThis storedPage) = some [] ∧
    scrolledIntoViewAfter (connectedCallbackTwice sampleEnv sampleThis storedPage) =
      some [[0, 1, 0, 1, 0, 0, 0, 0]] ∧
    clickListenersAfter (connectedCallback sampleEnv sampleThis storedPage) sampleThis =
      some [Listener.saveScroll] ∧
    clickListenersAfter (connectedCallbackTwice sampleEnv sampleThis storedPage) sampleThis =
      some [Listener.saveScroll, Listener.saveScroll] := by
  decide

/-! ## Browsing contexts -/

theorem connectedCallbackIn_granted (env : Env) (this : Ref) (pg : Page) :
    connectedCallbackIn .granted env this pg = .ok (firstRun env this pg) := by
  rw [← connectedCallback_firstRun env this pg]
  rfl

theorem connectedCallbackIn_denied (env : Env) (this : Ref) (pg : Page) :
    connectedCallbackIn .denied env this pg = .error .securityError := by
  simp only [connectedCallbackIn]
  rw [forLinks_eq env _ _ 0 _ (by simp)]

/-! ## The claims -/

/-- C1: for every link of the injected table of contents (there are 49) and every
`path_to_root`, the callback replaces the `href` attribute `h` written in the markup by
`path_to_root ++ h` exactly when `h` is non-empty, does not start with `#` and does not
start with an optional scheme of characters of `[a-z+]` and a colon followed by two
slashes; otherwise the attribute is left as written. -/
theorem connectedCallback_rewrites_relative_links (env : Env) (this : Ref) (pg : Page)
    (hc : connected pg.document this = true) :
    ∃ pg', connectedCallback env this pg = .ok pg' ∧
      (querySelectorAllA (setInnerHTML pg.document this tocMarkup) this).length = 49 ∧
      ∀ link ∈ querySelectorAllA (setInnerHTML pg.document this tocMarkup) this,
        ∃ h, getAttribute (setInnerHTML pg.document this tocMarkup) link "href" = some h ∧
          ((h ≠ "" ∧ startsWith h "#" = false ∧ ¬ HasSchemeSlashes h) →
            getAttribute pg'.document link "href" = some (env.path_to_root ++ h)) ∧
          (¬ (h ≠ "" ∧ startsWith h "#" = false ∧ ¬ HasSchemeSlashes h) →
            getAttribute pg'.document link "href" = some h) := by
  refine ⟨_, connectedCallback_eq env this pg, ?_, ?_⟩
  · have h := linksOf_eq hc
    simp only [linksOf, injected] at h
    rw [h, List.length_map, tocLinks_length]
  · intro link hl
    have hl' : link ∈ linksOf pg this := hl
    obtain ⟨s, hs, rfl⟩ := mem_linksOf hc hl'
    have hrel := tocLinks_relative s hs
    have hattr := getAttribute_injected_inside hc s (tocLinks_ne_nil s hs) "href"
    cases hh : getAttribute tocRoot s "href" with
    | none => simp [hh, isRelativeHref] at hrel
    | some h =>
      rw [hh] at hattr
      refine ⟨h, hattr, ?_, ?_⟩
      · intro hcond
        show getAttribute (finalDocument env this pg) (s ++ this) "href" = _
        rw [getAttribute_finalDocument, href_afterLinks hc hl', hattr]
        simp only [newHref, (isRelativeHref_iff h).2 hcond, if_true]
      · intro hcond
        show getAttribute (finalDocument env this pg) (s ++ this) "href" = _
        rw [getAttribute_finalDocument, href_afterLinks hc hl', hattr]
        have : isRelativeHref (some h) = false := by
          simpa using fun hr => hcond ((isRelativeHref_iff h).1 hr)
        simp only [newHref, this, Bool.false_eq_true, if_false]

/-- Witness of C1 on the sample page. -/
theorem connectedCallback_rewrites_relative_links_witness :
    connected samplePage.document sampleThis = true ∧
    ∃ pg', connectedCallback sampleEnv sampleThis samplePage = .ok pg' ∧
      (querySelectorAllA (setInnerHTML samplePage.document sampleThis tocMarkup)
        sampleThis).length = 49 ∧
      ∀ link ∈ querySelectorAllA (setInnerHTML samplePage.document sampleThis tocMarkup)
          sampleThis,
        ∃ h, getAttribute (setInnerHTML samplePage.document sampleThis tocMarkup) link "href"
            = some h ∧
          ((h ≠ "" ∧ startsWith h "#" = false ∧ ¬ HasSchemeSlashes h) →
            getAttribute pg'.document link "href" = some (sampleEnv.path_to_root ++ h)) ∧
          (¬ (h ≠ "" ∧ startsWith h "#" = false ∧ ¬ HasSchemeSlashes h) →
            getAttribute pg'.document link "href" = some h) :=
  ⟨by decide, connectedCallback_rewrites_relative_links sampleEnv sampleThis samplePage
    (by decide)⟩

/-- C2: after the callback a link of the table of contents carries class `active` if
and only if its resolved `href` equals the current page, or it is the first link while
`path_to_root` is empty and the current page ends with `/index.html`. -/
theorem connectedCallback_active_iff (env : Env) (this : Ref) (pg : Page)
    (hc : connected pg.document this = true) :
    ∃ pg', connectedCallback env this pg = .ok pg' ∧
      ∀ i link, (querySelectorAllA (setInnerHTML pg.document this tocMarkup) this)[i]? =
          some link →
        ("active" ∈ classList pg'.document link ↔
          hrefProperty env pg'.document link = currentPage env.href ∨
            (i = 0 ∧ env.path_to_root = "" ∧
              endsWith (currentPage env.href) "/index.html" = true)) := by
  refine ⟨_, connectedCallback_eq env this pg, ?_⟩
  intro i link hl
  have hl' : (linksOf pg this)[i]? = some link := hl
  show "active" ∈ classList (finalDocument env this pg) link ↔
    hrefProperty env (finalDocument env this pg) link = _ ∨ _
  rw [classList_finalDocument, active_afterLinks_iff hc hl',
    hrefProperty_finalDocument hc (List.getElem?_mem hl')]
  rfl

/-- Witness of C2 on the sample page. -/
theorem connectedCallback_active_iff_witness :
    connected samplePage.document sampleThis = true ∧
    ∃ pg', connectedCallback sampleEnv sampleThis samplePage = .ok pg' ∧
      ∀ i link, (querySelectorAllA (setInnerHTML samplePage.document sampleThis tocMarkup)
          sampleThis)[i]? = some link →
        ("active" ∈ classList pg'.document link ↔
          hrefProperty sampleEnv pg'.document link = currentPage sampleEnv.href ∨
            (i = 0 ∧ sampleEnv.path_to_root = "" ∧
              endsWith (currentPage sampleEnv.href) "/index.html" = true)) :=
  ⟨by decide, connectedCallback_active_iff sampleEnv sampleThis samplePage (by decide)⟩

/-- C3: with an empty `path_to_root`, for every document URL whose part before the first
`#` ends with `/` or with `/index.html`, the callback marks the first link of the table
of contents, the one to `intro/main.html`, with class `active`. -/
theorem connectedCallback_index_marks_first_link (env : Env) (this : Ref) (pg : Page)
    (hc : connected pg.document this = true) (hroot : env.path_to_root = "")
    (hurl : endsWith (splitHashFirst env.href) "/" = true ∨
      endsWith (splitHashFirst env.href) "/index.html" = true) :
    ∃ pg' link, connectedCallback env this pg = .ok pg' ∧
      (querySelectorAllA (setInnerHTML pg.document this tocMarkup) this)[0]? = some link ∧
      getAttribute pg'.document link "href" = some "intro/main.html" ∧
      "active" ∈ classList pg'.document link := by
  have hl : (linksOf pg this)[0]? = some (firstLink ++ this) := by
    rw [linksOf_eq hc, List.getElem?_map]
    have : tocLinks[0]? = some firstLink := by decide
    rw [this]
    rfl
  have hs : firstLink ∈ tocLinks := by decide
  have hattr : getAttribute (injected pg this) (firstLink ++ this) "href" =
      some "intro/main.html" := by
    rw [getAttribute_injected_inside hc firstLink (by decide)]
    decide
  refine ⟨_, firstLink ++ this, connectedCallback_eq env this pg, hl, ?_, ?_⟩
  · show getAttribute (finalDocument env this pg) (firstLink ++ this) "href" = _
    rw [getAttribute_finalDocument, href_afterLinks hc (List.getElem?_mem hl), hattr]
    have hrel : isRelativeHref (some "intro/main.html") = true := by decide
    simp only [newHref, hrel, if_true, hroot]
    rfl
  · show "active" ∈ classList (finalDocument env this pg) (firstLink ++ this)
    rw [classList_finalDocument, active_afterLinks_iff hc hl]
    exact Or.inr ⟨rfl, hroot, endsWith_currentPage env.href hurl⟩

/-- Witness of C3: the index page of a book served at the root of a site. -/
theorem connectedCallback_index_marks_first_link_witness :
    connected samplePage.document sampleThis = true ∧ rootEnv.path_to_root = "" ∧
    (endsWith (splitHashFirst rootEnv.href) "/" = true ∨
      endsWith (splitHashFirst rootEnv.href) "/index.html" = true) ∧
    ∃ pg' link, connectedCallback rootEnv sampleThis samplePage = .ok pg' ∧
      (querySelectorAllA (setInnerHTML samplePage.document sampleThis tocMarkup)
        sampleThis)[0]? = some link ∧
      getAttribute pg'.document link "href" = some "intro/main.html" ∧
      "active" ∈ classList pg'.document link :=
  ⟨by decide, by decide, by decide,
    connectedCallback_index_marks_first_link rootEnv sampleThis samplePage (by decide)
      (by decide) (by decide)⟩

/-- C4: for every link the callback marks active, the `li.chapter-item` that encloses the
link carries class `expanded`, and for every ancestor `li` of the link whose previous
element sibling has class `chapter-item`, that sibling carries class `expanded`, at
every level up to the root of the document. The ancestors of `link` are the proper
suffixes `a` of its reference. -/
theorem connectedCallback_expands_ancestors (env : Env) (this : Ref) (pg : Page)
    (hc : connected pg.document this = true) :
    ∃ pg', connectedCallback env this pg = .ok pg' ∧
      ∀ link ∈ querySelectorAllA (setInnerHTML pg.document this tocMarkup) this,
        "active" ∈ classList pg'.document link →
        (∃ parent, parentElement link = some parent ∧ tagName pg'.document parent = "LI" ∧
          "chapter-item" ∈ classList pg'.document parent ∧
          "expanded" ∈ classList pg'.document parent) ∧
        ∀ a sibling, a <:+ link → a ≠ link → tagName pg'.document a = "LI" →
          previousElementSibling a = some sibling →
          "chapter-item" ∈ classList pg'.document sibling →
          "expanded" ∈ classList pg'.document sibling := by
  refine ⟨_, connectedCallback_eq env this pg, ?_⟩
  intro link hl hact
  have hl' : link ∈ linksOf pg this := hl
  obtain ⟨i, hi⟩ := List.mem_iff_getElem?.1 hl'
  have hact' : "active" ∈ classList (finalDocument env this pg) link := hact
  rw [classList_finalDocument, active_afterLinks_iff hc hi] at hact'
  obtain ⟨s, hs, rfl⟩ := mem_linksOf hc hl'
  obtain ⟨k, p, rfl, hp, htag, hci⟩ := tocLinks_parent hs
  have hpar : parentElement (k :: p ++ this) = some (p ++ this) := rfl
  have hci' : "chapter-item" ∈ classList (injected pg this) (p ++ this) := by
    rw [classList_injected_inside hc p hp]
    exact hci
  constructor
  · refine ⟨p ++ this, hpar, ?_, ?_, ?_⟩
    · show tagName (finalDocument env this pg) (p ++ this) = "LI"
      rw [tagName_finalDocument, tagName_injected_inside hc p hp]
      exact htag
    · show "chapter-item" ∈ classList (finalDocument env this pg) (p ++ this)
      rw [chapterItem_finalDocument]
      exact hci'
    · show "expanded" ∈ classList (finalDocument env this pg) (p ++ this)
      rw [classList_finalDocument]
      exact expanded_afterLinks hc hi hact' hpar (Or.inl rfl) hci'
  · intro a sibling hsuf hne hta hsib hcs
    have hta' : tagName (finalDocument env this pg) a = "LI" := hta
    have hcs' : "chapter-item" ∈ classList (finalDocument env this pg) sibling := hcs
    rw [tagName_finalDocument] at hta'
    rw [chapterItem_finalDocument] at hcs'
    show "expanded" ∈ classList (finalDocument env this pg) sibling
    rw [classList_finalDocument]
    have hsuf' : a <:+ p ++ this := by
      rcases List.suffix_cons_iff.1 hsuf with h | h
      · exact absurd h hne
      · exact h
    exact expanded_afterLinks hc hi hact' hpar (Or.inr ⟨a, hsuf', hta', hsib⟩) hcs'

/-- Witness of C4 on the sample page. -/
theorem connectedCallback_expands_ancestors_witness :
    connected samplePage.document sampleThis = true ∧
    ∃ pg', connectedCallback sampleEnv sampleThis samplePage = .ok pg' ∧
      ∀ link ∈ querySelectorAllA (setInnerHTML samplePage.document sampleThis tocMarkup)
          sampleThis,
        "active" ∈ classList pg'.document link →
        (∃ parent, parentElement link = some parent ∧ tagName pg'.document parent = "LI" ∧
          "chapter-item" ∈ classList pg'.document parent ∧
          "expanded" ∈ classList pg'.document parent) ∧
        ∀ a sibling, a <:+ link → a ≠ link → tagName pg'.document a = "LI" →
          previousElementSibling a = some sibling →
          "chapter-item" ∈ classList pg'.document sibling →
          "expanded" ∈ classList pg'.document sibling :=
  ⟨by decide, connectedCallback_expands_ancestors sampleEnv sampleThis samplePage (by decide)⟩

/-- C6: the callback restores or computes the scroll position. If session storage holds
a non-empty value under `sidebar-scroll`, that value is assigned to `scrollTop`, which
then holds the number the setter makes of it, whatever the conversion, and no element is
scrolled into view; otherwise `scrollTop` keeps its value and the element matching
`#sidebar .active`, if there is one, is scrolled into view; in both cases the key
`sidebar-scroll` is absent from session storage afterwards. -/
theorem connectedCallback_restores_scroll (env : Env) (this : Ref) (pg : Page)
    (hc : connected pg.document this = true) :
    ∃ pg', connectedCallback env this pg = .ok pg' ∧
      getItem pg'.sessionStorage "sidebar-scroll" = none ∧
      (∀ v, getItem pg.sessionStorage "sidebar-scroll" = some v → v ≠ "" →
        scrollTop pg'.document this = env.toNumber v ∧
          pg'.scrolledIntoView = pg.scrolledIntoView) ∧
      ((getItem pg.sessionStorage "sidebar-scroll" = none ∨
          getItem pg.sessionStorage "sidebar-scroll" = some "") →
        scrollTop pg'.document this = scrollTop pg.document this ∧
          pg'.scrolledIntoView =
            pg.scrolledIntoView ++ (querySidebarActive pg'.document).toList) := by
  refine ⟨_, connectedCallback_eq env this pg, getItem_removeItem_self _ _, ?_, ?_⟩
  · intro v hv hne
    exact ⟨scrollTop_finalDocument_stored env this pg hc v hv hne,
      log_stored env this pg v hv hne⟩
  · intro hv
    exact ⟨scrollTop_finalDocument_not_stored env this pg hv, log_not_stored env this pg hv⟩

/-- Witness of C6: on the stored page, whose session storage holds `120` under
`sidebar-scroll`, the callback sets `scrollTop` to 120, scrolls nothing into view and
removes the key. -/
theorem connectedCallback_restores_scroll_witness :
    connected storedPage.document sampleThis = true ∧
    getItem storedPage.sessionStorage "sidebar-scroll" = some "120" ∧
    ∃ pg', connectedCallback sampleEnv sampleThis storedPage = .ok pg' ∧
      getItem pg'.sessionStorage "sidebar-scroll" = none ∧
      scrollTop pg'.document sampleThis = JSNumber.ofNat 120 ∧
      pg'.scrolledIntoView = [] := by
  obtain ⟨pg', h1, h2, h3, _⟩ :=
    connectedCallback_restores_scroll sampleEnv sampleThis storedPage (by decide)
  exact ⟨by decide, by decide, pg', h1, h2, h3 "120" (by decide) (by decide)⟩

/-- C8, where the code departs from it: on a page opened from a `data:` URL the browser
denies access to session storage, and the callback raises a `SecurityError` on line 48
instead of completing. -/
theorem connectedCallback_raises_on_opaque_origin :
    raisedBy (connectedCallbackIn .denied opaqueEnv sampleThis samplePage) =
      some JSError.securityError := by
  decide

/-- C8 as amended: for every document URL, `path_to_root`, session-storage content and
document, the callback never raises a `TypeError` (every lookup is null-checked, the loop
over the links never reads outside the array, and the ancestor walk ends at the root);
it completes without raising wherever the browser grants access to session storage, and
raises a `SecurityError` wherever the browser denies it. -/
theorem connectedCallbackIn_raises_only_when_denied (env : Env) (this : Ref) (pg : Page) :
    (∃ pg', connectedCallbackIn .granted env this pg = .ok pg') ∧
    connectedCallbackIn .denied env this pg = .error .securityError ∧
    ∀ access, connectedCallbackIn access env this pg ≠ .error .typeError := by
  have hg : connectedCallbackIn .granted env this pg = .ok (firstRun env this pg) :=
    connectedCallbackIn_granted env this pg
  have hd : connectedCallbackIn .denied env this pg = .error .securityError :=
    connectedCallbackIn_denied env this pg
  refine ⟨⟨_, hg⟩, hd, ?_⟩
  intro access h
  cases access with
  | granted =>
    rw [hg] at h
    exact Except.noConfusion h
  | denied =>
    rw [hd] at h
    have := Except.error.inj h
    exact JSError.noConfusion this

/-- C9: the only session-storage key the script touches is `sidebar-scroll`: the value
under every other key is the same after the callback, and after a click handled by the
click listener, as it was before. -/
theorem storage_frame (env : Env) (this : Ref) (pg : Page) (e : Event) (k : String)
    (hk : k ≠ "sidebar-scroll") :
    (∃ pg', connectedCallback env this pg = .ok pg' ∧
      getItem pg'.sessionStorage k = getItem pg.sessionStorage k) ∧
    getItem (clickListener e pg).sessionStorage k = getItem pg.sessionStorage k := by
  refine ⟨⟨_, connectedCallback_eq env this pg, getItem_removeItem_ne _ _ _ hk⟩, ?_⟩
  unfold clickListener
  split
  · exact getItem_setItem_ne _ _ _ _ hk
  · rfl

/-- Witness of C9: the key `theme` of the stored page. -/
theorem storage_frame_witness :
    "theme" ≠ "sidebar-scroll" ∧
    (∃ pg', connectedCallback sampleEnv sampleThis storedPage = .ok pg' ∧
      getItem pg'.sessionStorage "theme" = getItem storedPage.sessionStorage "theme") ∧
    getItem (clickListener linkClick storedPage).sessionStorage "theme" =
      getItem storedPage.sessionStorage "theme" :=
  ⟨by decide, storage_frame sampleEnv sampleThis storedPage linkClick "theme" (by decide)⟩

/-- C10: the 49 `href` attributes of the table of contents are pairwise distinct, each is
relative, and none ends with `index.html`; hence, when link resolution is injective and
keeps the last path segment, the callback marks at most one link active, also when the
index page aliases the first link. -/
theorem connectedCallback_at_most_one_active (env : Env) (this : Ref) (pg : Page)
    (hc : connected pg.document this = true) (hinj : Function.Injective env.resolve)
    (hseg : ∀ h, lastSegment (env.resolve h) = lastSegment h) :
    tocHrefs.length = 49 ∧ tocHrefs.Nodup ∧ (∀ h ∈ tocHrefs, isRelativeHref h = true) ∧
    (∀ h ∈ tocHrefs, ∃ x, h = some x ∧ endsWith x "index.html" = false) ∧
    ∃ pg', connectedCallback env this pg = .ok pg' ∧
      ∀ l1 ∈ querySelectorAllA (setInnerHTML pg.document this tocMarkup) this,
      ∀ l2 ∈ querySelectorAllA (setInnerHTML pg.document this tocMarkup) this,
        "active" ∈ classList pg'.document l1 → "active" ∈ classList pg'.document l2 →
        l1 = l2 := by
  refine ⟨tocHrefs_length, tocHrefs_nodup, tocHrefs_relative, tocHrefs_not_index, _,
    connectedCallback_eq env this pg, ?_⟩
  intro l1 hl1 l2 hl2 ha1 ha2
  have hl1' : l1 ∈ linksOf pg this := hl1
  have hl2' : l2 ∈ linksOf pg this := hl2
  obtain ⟨i1, hi1⟩ := List.mem_iff_getElem?.1 hl1'
  obtain ⟨i2, hi2⟩ := List.mem_iff_getElem?.1 hl2'
  obtain ⟨s1, hs1, rfl⟩ := mem_linksOf hc hl1'
  obtain ⟨s2, hs2, rfl⟩ := mem_linksOf hc hl2'
  obtain ⟨h1, hh1, hx1, hc1⟩ := current_of_active hc hs1 hi1 ha1
  obtain ⟨h2, hh2, hx2, hc2⟩ := current_of_active hc hs2 hi2 ha2
  rcases hc1 with e1 | ⟨z1, r1, p1⟩
  · rcases hc2 with e2 | ⟨z2, r2, p2⟩
    · have := string_append_left_cancel _ _ _ (hinj (e1.trans e2.symm))
      rw [tocLinks_href_injective hs1 hs2 (by rw [hh1, hh2, this])]
    · exact (not_current_by_href_of_index hseg hx1 r2 p2 e1).elim
  · rcases hc2 with e2 | ⟨z2, r2, p2⟩
    · exact (not_current_by_href_of_index hseg hx2 r1 p1 e2).elim
    · subst z1 z2
      have := hi1.symm.trans hi2
      simpa using this

/-- Witness of C10: the index page of a book served at the root of a site, where a
relative link resolves to the site root followed by the link. -/
theorem connectedCallback_at_most_one_active_witness :
    connected samplePage.document sampleThis = true ∧ Function.Injective rootEnv.resolve ∧
    (∀ h, lastSegment (rootEnv.resolve h) = lastSegment h) ∧
    tocHrefs.length = 49 ∧ tocHrefs.Nodup ∧ (∀ h ∈ tocHrefs, isRelativeHref h = true) ∧
    (∀ h ∈ tocHrefs, ∃ x, h = some x ∧ endsWith x "index.html" = false) ∧
    ∃ pg', connectedCallback rootEnv sampleThis samplePage = .ok pg' ∧
      ∀ l1 ∈ querySelectorAllA (setInnerHTML samplePage.document sampleThis tocMarkup)
        sampleThis,
      ∀ l2 ∈ querySelectorAllA (setInnerHTML samplePage.document sampleThis tocMarkup)
        sampleThis,
        "active" ∈ classList pg'.document l1 → "active" ∈ classList pg'.document l2 →
        l1 = l2 :=
  ⟨by decide, fun a b h => string_append_left_cancel _ a b h,
    fun h => lastSegment_append_of_slash _ h (by decide),
    connectedCallback_at_most_one_active rootEnv sampleThis samplePage (by decide)
      (fun a b h => string_append_left_cancel _ a b h)
      (fun h => lastSegment_append_of_slash _ h (by decide))⟩

/-- C5, where the code departs from it: a click on the number label of a sidebar link has
the `strong` element as its target, so the click listener stores nothing, and the next
page does not get the scroll offset 120 back; a click on the `a` element itself stores
the offset and the next page restores it. -/
theorem strong_click_loses_scroll_offset :
    tagName scrolledPage.document strongClick.target = "STRONG" ∧
    parentElement strongClick.target = some linkClick.target ∧
    tagName scrolledPage.document linkClick.target = "A" ∧
    scrollTop scrolledPage.document sampleThis = JSNumber.ofNat 120 ∧
    getItem (clickListener strongClick scrolledPage).sessionStorage "sidebar-scroll" = none ∧
    scrollTopAfter (connectedCallback sampleEnv sampleThis
      (nextPage (clickListener strongClick scrolledPage))) sampleThis =
      some (JSNumber.ofNat 0) ∧
    getItem (clickListener linkClick scrolledPage).sessionStorage "sidebar-scroll" =
      some "120" ∧
    scrollTopAfter (connectedCallback sampleEnv sampleThis
      (nextPage (clickListener linkClick scrolledPage))) sampleThis =
      some (JSNumber.ofNat 120) := by
  decide

/-- C7, where the code departs from it: with a scroll offset in session storage, one run
of the callback restores the offset and scrolls nothing into view, while two runs in
succession also scroll the active link into view, and leave two click listeners on the
sidebar instead of one. -/
theorem connectedCallback_twice_differs :
    (scrolledIntoViewAfter (connectedCallback sampleEnv sampleThis storedPage) = some [] ∧
      scrolledIntoViewAfter (connectedCallbackTwice sampleEnv sampleThis storedPage) =
        some [[0, 1, 0, 1, 0, 0, 0, 0]] ∧
      clickListenersAfter (connectedCallback sampleEnv sampleThis storedPage) sampleThis =
        some [Listener.saveScroll] ∧
      clickListenersAfter (connectedCallbackTwice sampleEnv sampleThis storedPage) sampleThis =
        some [Listener.saveScroll, Listener.saveScroll]) ∧
    scrolledIntoViewAfter (connectedCallbackTwice sampleEnv sampleThis storedPage) ≠
      scrolledIntoViewAfter (connectedCallback sampleEnv sampleThis storedPage) ∧
    clickListenersAfter (connectedCallbackTwice sampleEnv sampleThis storedPage) sampleThis ≠
      clickListenersAfter (connectedCallback sampleEnv sampleThis storedPage) sampleThis := by
  have h := storedPage_runs
  refine ⟨h, ?_, ?_⟩
  · rw [h.1, h.2.1]
    decide
  · rw [h.2.2.1, h.2.2.2]
    decide

/-- C7 as amended: two runs of the callback in succession leave the same `href`
attributes, the same classes on every element, the same session storage and the same
`scrollTop` as one run; the second run scrolls the element matching `#sidebar .active`
into view, and registers one more click listener on the sidebar. -/
theorem connectedCallback_twice_same_document (env : Env) (this : Ref) (pg : Page)
    (hc : connected pg.document this = true) :
    ∃ p1 p2, connectedCallback env this pg = .ok p1 ∧ connectedCallback env this p1 = .ok p2 ∧
      (∀ r, getAttribute p2.document r "href" = getAttribute p1.document r "href") ∧
      (∀ r c, c ∈ classList p2.document r ↔ c ∈ classList p1.document r) ∧
      p2.sessionStorage = p1.sessionStorage ∧
      scrollTop p2.document this = scrollTop p1.document this ∧
      p2.scrolledIntoView = p1.scrolledIntoView ++ (querySidebarActive p1.document).toList ∧
      (clickListeners p2.document this).count Listener.saveScroll =
        (clickListeners p1.document this).count Listener.saveScroll + 1 := by
  have hnone : getItem (firstRun env this pg).sessionStorage "sidebar-scroll" = none :=
    getItem_removeItem_self _ _
  refine ⟨firstRun env this pg, firstRun env this (firstRun env this pg),
    connectedCallback_firstRun env this pg,
    connectedCallback_firstRun env this (firstRun env this pg),
    fun r => href_second_run hc r, fun r c => mem_classList_second_run hc r c,
    removeItem_removeItem _ _,
    scrollTop_finalDocument_not_stored env this (firstRun env this pg) (Or.inl hnone),
    ?_, count_saveScroll_finalDocument env this (firstRun env this pg) (connected_firstRun hc)⟩
  show (afterScroll env this (firstRun env this pg) (afterLinks env this (firstRun env this pg))).2
    = _
  rw [log_not_stored env this (firstRun env this pg) (Or.inl hnone),
    querySidebarActive_second_run hc]
  rfl

/-- Witness of the amended C7 on the stored page. -/
theorem connectedCallback_twice_same_document_witness :
    connected storedPage.document sampleThis = true ∧
    ∃ p1 p2, connectedCallback sampleEnv sampleThis storedPage = .ok p1 ∧
      connectedCallback sampleEnv sampleThis p1 = .ok p2 ∧
      (∀ r, getAttribute p2.document r "href" = getAttribute p1.document r "href") ∧
      (∀ r c, c ∈ classList p2.document r ↔ c ∈ classList p1.document r) ∧
      p2.sessionStorage = p1.sessionStorage ∧
      scrollTop p2.document sampleThis = scrollTop p1.document sampleThis ∧
      p2.scrolledIntoView = p1.scrolledIntoView ++ (querySidebarActive p1.document).toList ∧
      (clickListeners p2.document sampleThis).count Listener.saveScroll =
        (clickListeners p1.document sampleThis).count Listener.saveScroll + 1 :=
  ⟨by decide, connectedCallback_twice_same_document sampleEnv sampleThis storedPage
    (by decide)⟩

end MdbookToc
